import Mathlib

/-!
# Verification of the privacydam-go export pipeline

Shallow embedding, in Lean 4, of the pure computational core of the
`tovdata/privacydam-go` repository: the per-field anonymization operators
(`process/util/did`), the k-anonymity tester (`process/util/kAno`), and the
pure helpers of the export pipeline (`process/util/db/external.go`): CSV
encoding, value stringification, evaluation-condition checking and the final
`Evaluation` record.

Modelling conventions:
* Go machine integers are modelled as `ℤ`/`ℕ` (no operation in the modelled
  code can overflow on the inputs the theorems quantify over).
* Go `float64` values are modelled as exact rationals `ℚ`; the decimal
  parsing/formatting helpers (`strconv.ParseFloat`, `strconv.FormatFloat`,
  `fmt.Sprint` of a float) are modelled exactly on rationals with finite
  decimal expansions, which the concrete values exercised by the theorems
  all have, and `math.Round` is modelled by its documented
  "nearest integer, half away from zero" contract.
* Go strings are modelled as `String`/`List Char`, one `Char` per byte/rune
  (`len`, indexing and slicing are positional in both models).
* Code that can panic (out-of-range slicing, failed type assertions) is
  modelled with `Option`, `none` standing for the panic.
* Go maps are modelled as association lists; every theorem stated about them
  is insensitive to iteration order.
-/

set_option maxRecDepth 100000
set_option maxHeartbeats 2000000

namespace PrivacyDam

/-! ## Decimal digits and integer formatting (strconv helpers) -/

/-- One decimal digit character, as produced by Go's integer formatting. -/
def digitChar : ℕ → Char
  | 0 => '0'
  | 1 => '1'
  | 2 => '2'
  | 3 => '3'
  | 4 => '4'
  | 5 => '5'
  | 6 => '6'
  | 7 => '7'
  | 8 => '8'
  | 9 => '9'
  | _ => '*'

/-- Accumulator loop of decimal formatting: peel digits from the low end.
The first argument is fuel making the recursion structural; any fuel above
the number of digits yields the same result (`natDecimalGo_fuel`). -/
def natDecimalGo : ℕ → ℕ → List Char → List Char
  | 0, _, acc => acc
  | fuel + 1, n, acc =>
    if n < 10 then digitChar n :: acc
    else natDecimalGo fuel (n / 10) (digitChar (n % 10) :: acc)

/-- Decimal digits of a natural number (`strconv.FormatUint`). -/
def natDecimal (n : ℕ) : List Char := natDecimalGo (n + 1) n []

theorem natDecimalGo_fuel : ∀ (fuel fuel2 n : ℕ) (acc : List Char), n < fuel → n < fuel2 →
    natDecimalGo fuel n acc = natDecimalGo fuel2 n acc := by
  intro fuel
  induction fuel with
  | zero =>
    intro fuel2 n acc h
    omega
  | succ fuel ih =>
    intro fuel2 n acc h h2
    cases fuel2 with
    | zero => omega
    | succ fuel2 =>
      rw [natDecimalGo, natDecimalGo]
      by_cases h10 : n < 10
      · rw [if_pos h10, if_pos h10]
      · rw [if_neg h10, if_neg h10]
        have hn : 0 < n := by omega
        have hdiv : n / 10 < n := Nat.div_lt_self hn (by norm_num)
        exact ih fuel2 (n / 10) _ (by omega) (by omega)

/-- Decimal form of an integer (`strconv.FormatInt(_, 10)`). -/
def intDecimal (n : ℤ) : String :=
  if n < 0 then String.mk ('-' :: natDecimal n.natAbs) else String.mk (natDecimal n.natAbs)

/-- Left-pad a digit string with zeros to a given width. -/
def padZeros (width : ℕ) (l : List Char) : List Char :=
  List.replicate (width - l.length) '0' ++ l

/-- Numeric value of a decimal digit character. -/
def digitVal (c : Char) : ℕ := c.toNat - 48

/-- Value of a string of decimal digits, most significant first. -/
def digitsVal (l : List Char) : ℕ := l.foldl (fun a c => 10 * a + digitVal c) 0

/-! ## Parsing (strconv.ParseFloat / ParseInt / ParseBool)

`parseFloat` models `strconv.ParseFloat(s, 64)` on the plain decimal forms
(optional sign, integer digits, optional fraction); the exponent, hexadecimal
and inf/nan forms, irrelevant to every claim, are not modelled, and the
parsed value is kept exact instead of being rounded to a binary float. -/

/-- Decimal significand after the optional sign: `digits[.digits]`. -/
def parseDecimalBody (cs : List Char) : Option ℚ :=
  let intPart := cs.takeWhile Char.isDigit
  let rest := cs.dropWhile Char.isDigit
  match rest with
  | [] => if intPart.isEmpty then none else some ((digitsVal intPart : ℚ))
  | '.' :: rest2 =>
    let fracPart := rest2.takeWhile Char.isDigit
    let rest3 := rest2.dropWhile Char.isDigit
    if rest3.isEmpty && !(intPart.isEmpty && fracPart.isEmpty) then
      some ((digitsVal intPart : ℚ) + (digitsVal fracPart : ℚ) / (10 : ℚ) ^ fracPart.length)
    else none
  | _ => none

/-- Model of `strconv.ParseFloat(s, 64)` (plain decimal forms, kept exact). -/
def parseFloat (s : String) : Option ℚ :=
  match s.data with
  | '-' :: rest => (parseDecimalBody rest).map (fun q => -q)
  | '+' :: rest => parseDecimalBody rest
  | rest => parseDecimalBody rest

/-- Model of `strconv.ParseInt(s, 10, 0)`. -/
def parseInt (s : String) : Option ℤ :=
  match s.data with
  | '-' :: rest =>
    if !rest.isEmpty && rest.all Char.isDigit then some (-(digitsVal rest : ℤ)) else none
  | '+' :: rest =>
    if !rest.isEmpty && rest.all Char.isDigit then some ((digitsVal rest : ℤ)) else none
  | rest =>
    if !rest.isEmpty && rest.all Char.isDigit then some ((digitsVal rest : ℤ)) else none

/-- Model of `strconv.ParseBool`. -/
def parseBool (s : String) : Option Bool :=
  match s with
  | "1" | "t" | "T" | "true" | "TRUE" | "True" => some true
  | "0" | "f" | "F" | "false" | "FALSE" | "False" => some false
  | _ => none

/-- Model of `strconv.FormatBool`. -/
def formatBool (b : Bool) : String := if b then "true" else "false"

/-! ## Rounding and fixed-point formatting -/

/-- Model of Go `math.Round`: nearest integer, ties rounded away from zero. -/
def roundHalfAway (q : ℚ) : ℤ :=
  if 0 ≤ q then ⌊q + 1 / 2⌋ else -⌊-q + 1 / 2⌋

/-- Model of `strconv.FormatFloat(x, 'f', d, 64)` for `d ≥ 0` fractional
digits, on an exact rational argument.  (Go's negative-zero formatting is not
modelled; no modelled code path produces a negative zero.) -/
def formatFixed (q : ℚ) (d : ℕ) : String :=
  let n := roundHalfAway (q * (10 : ℚ) ^ d)
  let s := n.natAbs
  let signPart : List Char := if n < 0 then ['-'] else []
  let intPart := natDecimal (s / 10 ^ d)
  if d = 0 then String.mk (signPart ++ intPart)
  else String.mk (signPart ++ intPart ++ '.' :: padZeros d (natDecimal (s % 10 ^ d)))

/-- Model of Go's shortest-form float formatting (`fmt.Sprint`/`%v` of a
`float64`) for rationals with a finite decimal expansion: integers print with
no decimal point, other values with the least number of fractional digits
that represents them exactly.  (Values needing the exponent form or more than
sixty fractional digits never arise in the modelled code.) -/
def goFmtFloat (q : ℚ) : String :=
  if q.den = 1 then intDecimal q.num
  else
    match (List.range 60).find? (fun d => (q * (10 : ℚ) ^ (d + 1)).den = 1) with
    | some d => formatFixed q (d + 1)
    | none => "?"

/-! ## CSV encoding (`transformToCsvFormat` in process/util/db/external.go) -/

/-- One CSV field: wrapped in double quotes exactly when it contains a comma
(`strings.ContainsAny(value, ",")`); embedded quotes are left alone. -/
def quoteCsvField (value : String) : String :=
  if value.data.contains ',' then "\"" ++ value ++ "\"" else value

/-- Body of one CSV record: the Go loop writes each (possibly quoted) field,
followed by a comma whenever the field is not the last one. -/
def csvBody : List String → String
  | [] => ""
  | [value] => quoteCsvField value
  | value :: rest => quoteCsvField value ++ "," ++ csvBody rest

/-- Model of `transformToCsvFormat`: the record body then `\r\n`. -/
def transformToCsvFormat (data : List String) : String := csvBody data ++ "\r\n"

/-- The spec's own description of a CSV field, for comparison. -/
def csvFieldSpec (value : String) : String :=
  if ',' ∈ value.data then "\"" ++ value ++ "\"" else value

theorem quoteCsvField_eq_spec (value : String) : quoteCsvField value = csvFieldSpec value := by
  simp only [quoteCsvField, csvFieldSpec, List.contains, List.elem_iff]

theorem csvBody_eq_intercalate (data : List String) :
    (csvBody data).data = List.intercalate [','] (data.map (fun v => (csvFieldSpec v).data)) := by
  induction data with
  | nil => rfl
  | cons v rest ih =>
    cases rest with
    | nil =>
      simp [csvBody, List.intercalate, quoteCsvField_eq_spec]
    | cons w rest2 =>
      have hstep : csvBody (v :: w :: rest2) = quoteCsvField v ++ "," ++ csvBody (w :: rest2) := by
        simp [csvBody]
      rw [hstep, quoteCsvField_eq_spec]
      simp only [List.map, List.intercalate, List.intersperse, List.flatten]
      simp only [List.map, List.intercalate, List.intersperse] at ih
      simp [String.data_append, ih]

/-- C5: the CSV encoder joins fields with `,`, terminates the record with
`\r\n`, and wraps a field in double quotes exactly when the field contains a
comma, never escaping embedded double quotes. -/
theorem c5_csv_encoding (data : List String) :
    (transformToCsvFormat data).data =
      List.intercalate [','] (data.map (fun v => (csvFieldSpec v).data)) ++ ['\r', '\n'] ∧
    (∀ value : String, ',' ∈ value.data → quoteCsvField value = "\"" ++ value ++ "\"") ∧
    (∀ value : String, ',' ∉ value.data → quoteCsvField value = value) := by
  refine ⟨?_, ?_, ?_⟩
  · rw [transformToCsvFormat, String.data_append, csvBody_eq_intercalate]
  · intro value hv
    rw [quoteCsvField_eq_spec, csvFieldSpec, if_pos hv]
  · intro value hv
    rw [quoteCsvField_eq_spec, csvFieldSpec, if_neg hv]

/-- Witness for C5 at a concrete record. -/
theorem c5_csv_encoding_witness :
    (transformToCsvFormat ["a,b", "ab"]).data = "\"a,b\",ab\r\n".data ∧
    quoteCsvField "a,b" = "\"a,b\"" ∧ quoteCsvField "ab" = "ab" := by
  refine ⟨?_, (c5_csv_encoding []).2.1 "a,b" (by decide), (c5_csv_encoding []).2.2 "ab" (by decide)⟩
  have h := (c5_csv_encoding ["a,b", "ab"]).1
  rw [h]
  decide

/-! ## k-anonymity tester (`process/util/kAno/kAnoTester.go`)

`anoEncoder`'s two Go maps are modelled as association lists; all stated
properties are insensitive to entry order.  Frequencies and codes are `ℕ`
(Go `int`; no modelled quantity can overflow). -/

/-- Association-list lookup (Go map read, `ok` form). -/
def alookup : List (String × ℕ) → String → Option ℕ
  | [], _ => none
  | (k, v) :: rest, key => if k = key then some v else alookup rest key

/-- Association-list store (Go map assignment): update in place, or append. -/
def aset : List (String × ℕ) → String → ℕ → List (String × ℕ)
  | [], key, value => [(key, value)]
  | (k, v) :: rest, key, value =>
    if k = key then (k, value) :: rest else (k, v) :: aset rest key value

/-- State of `anoEncoder`: the code dictionary and the frequency dictionary. -/
structure AnoEncoder where
  encDict : List (String × ℕ)
  freqDict : List (String × ℕ)
  initialized : Bool

/-- `anoEncoder.init()`. -/
def AnoEncoder.initState : AnoEncoder := ⟨[], [], true⟩

/-- `anoEncoder.add`: ignore the empty string; bump the frequency of a known
string, or register a fresh string with code `len(encDict)+1` and frequency 1.
Returns the new state and `p.encDict[str]` (0 when absent, as for a Go map). -/
def AnoEncoder.add (p : AnoEncoder) (str : String) : AnoEncoder × ℕ :=
  if str = "" then (p, 0)
  else
    match alookup p.freqDict str with
    | some freq =>
      ({ p with freqDict := aset p.freqDict str (freq + 1) }, (alookup p.encDict str).getD 0)
    | none =>
      let p2 : AnoEncoder :=
        { p with encDict := p.encDict ++ [(str, p.encDict.length + 1)],
                 freqDict := p.freqDict ++ [(str, 1)] }
      (p2, (alookup p2.encDict str).getD 0)

/-- `anoEncoder.getMinFreq`: fold of the frequency values under `min`, started
from the sentinel 65535 (which is also the result for an empty registry). -/
def AnoEncoder.getMinFreq (p : AnoEncoder) : ℕ :=
  p.freqDict.foldl (fun minFreq kv => if kv.2 < minFreq then kv.2 else minFreq) 65535

/-- State of `AnoTester` (kAnoTester.go version): one `anoEncoder` per column,
the final fingerprint encoder, the target k and the evaluation mask. -/
structure AnoTester where
  encoderList : List AnoEncoder
  finalEncoder : AnoEncoder
  targetKValue : ℕ
  evalFields : List Bool

/-- `AnoTester.New(length, kValue)`: fresh encoders, all-true mask. -/
def AnoTester.new (length kValue : ℕ) : AnoTester :=
  ⟨List.replicate length AnoEncoder.initState, AnoEncoder.initState, kValue,
    List.replicate length true⟩

/-- Per-column loop of `AnoTester.AddStrings`: walk the row together with the
per-column encoders and the mask; evaluated columns feed their encoder and
contribute their code to the `encoded` list, masked columns are skipped.
(The Go loop indexes `encoderList` and `evalFields` by the row position;
callers pass rows of the column count's length.) -/
def addStringsAux : List AnoEncoder → List Bool → List String → List AnoEncoder × List ℕ
  | e :: es, b :: bs, v :: vs =>
    if b then
      let r := e.add v
      let rest := addStringsAux es bs vs
      (r.1 :: rest.1, r.2 :: rest.2)
    else
      let rest := addStringsAux es bs vs
      (e :: rest.1, rest.2)
  | encs, _, _ => (encs, [])

/-- Space-separated decimal values, as in `fmt`'s rendering of `[]int`. -/
def spaceJoinNat : List ℕ → List Char
  | [] => []
  | [n] => natDecimal n
  | n :: rest => natDecimal n ++ ' ' :: spaceJoinNat rest

/-- `fmt.Sprintf("%v", encoded)` for `encoded : []int`: the decimal values
separated by single spaces, between square brackets. -/
def goSprintNatList (l : List ℕ) : String :=
  String.mk ('[' :: spaceJoinNat l ++ [']'])

/-- `AnoTester.AddStrings`: encode the evaluated columns, then register the
printed code list with the final encoder. -/
def AnoTester.addStrings (t : AnoTester) (strList : List String) : AnoTester × ℕ :=
  let r := addStringsAux t.encoderList t.evalFields strList
  let f := t.finalEncoder.add (goSprintNatList r.2)
  ({ t with encoderList := r.1, finalEncoder := f.1 }, f.2)

/-- `AnoTester.Eval()`: the minimum registered frequency, compared with the
target k. -/
def AnoTester.eval (t : AnoTester) : Bool × ℕ :=
  let actValue := t.finalEncoder.getMinFreq
  if actValue < t.targetKValue then (false, actValue) else (true, actValue)

/-- A stream of redacted rows fed to the tester one `AddStrings` at a time,
as the CSV writer does. -/
def addAll (t : AnoTester) : List (List String) → AnoTester
  | [] => t
  | row :: rest => addAll (t.addStrings row).1 rest

/-! ### Registry lemmas for C1 -/

theorem aset_sum_of_alookup : ∀ (l : List (String × ℕ)) (key : String) (f : ℕ),
    alookup l key = some f →
    (List.map Prod.snd (aset l key (f + 1))).sum = (List.map Prod.snd l).sum + 1 := by
  intro l
  induction l with
  | nil =>
    intro key f h
    simp [alookup] at h
  | cons kv rest ih =>
    intro key f h
    obtain ⟨k, v⟩ := kv
    by_cases hk : k = key
    · simp only [alookup, if_pos hk] at h
      injection h with hv
      subst hv
      simp only [aset, if_pos hk, List.map_cons, List.sum_cons]
      omega
    · simp only [alookup, if_neg hk] at h
      simp only [aset, if_neg hk, List.map_cons, List.sum_cons, ih key f h]
      omega

theorem add_freq_sum (p : AnoEncoder) (str : String) (h : str ≠ "") :
    (List.map Prod.snd (p.add str).1.freqDict).sum
      = (List.map Prod.snd p.freqDict).sum + 1 := by
  rw [AnoEncoder.add]
  rw [if_neg h]
  cases hl : alookup p.freqDict str with
  | some f => simpa using aset_sum_of_alookup p.freqDict str f hl
  | none => simp

/-- The fingerprint string always starts with a bracket, so it is never the
empty string that `anoEncoder.add` would ignore. -/
theorem goSprintNatList_ne_empty (l : List ℕ) : goSprintNatList l ≠ "" := by
  rw [goSprintNatList]
  intro h
  have : ('[' :: spaceJoinNat l ++ [']']) = ([] : List Char) := congrArg String.data h
  simp at this

theorem addStrings_freq_sum (t : AnoTester) (row : List String) :
    (List.map Prod.snd (t.addStrings row).1.finalEncoder.freqDict).sum
      = (List.map Prod.snd t.finalEncoder.freqDict).sum + 1 := by
  rw [AnoTester.addStrings]
  exact add_freq_sum _ _ (goSprintNatList_ne_empty _)

theorem addAll_freq_sum (rows : List (List String)) (t : AnoTester) :
    (List.map Prod.snd (addAll t rows).finalEncoder.freqDict).sum
      = (List.map Prod.snd t.finalEncoder.freqDict).sum + rows.length := by
  induction rows generalizing t with
  | nil => simp [addAll]
  | cons row rest ih =>
    rw [addAll, ih, addStrings_freq_sum]
    simp only [List.length_cons]
    omega

theorem getMinFreq_fold_spec (l : List (String × ℕ)) (init : ℕ) :
    let m := l.foldl (fun minFreq kv => if kv.2 < minFreq then kv.2 else minFreq) init
    m ≤ init ∧ (∀ f ∈ List.map Prod.snd l, m ≤ f) ∧ (m = init ∨ m ∈ List.map Prod.snd l) := by
  induction l generalizing init with
  | nil => simp
  | cons kv rest ih =>
    simp only [List.foldl_cons, List.map_cons, List.mem_cons]
    have h := ih (if kv.2 < init then kv.2 else init)
    rcases h with ⟨h1, h2, h3⟩
    by_cases hlt : kv.2 < init
    · rw [if_pos hlt] at h1 h2 h3 ⊢
      refine ⟨by omega, fun f hf => ?_, ?_⟩
      · rcases hf with rfl | hf
        · exact h1
        · exact h2 f hf
      · rcases h3 with h3 | h3
        · exact Or.inr (Or.inl h3)
        · exact Or.inr (Or.inr h3)
    · rw [if_neg hlt] at h1 h2 h3 ⊢
      refine ⟨h1, fun f hf => ?_, ?_⟩
      · rcases hf with rfl | hf
        · omega
        · exact h2 f hf
      · rcases h3 with h3 | h3
        · exact Or.inl h3
        · exact Or.inr (Or.inr h3)

theorem addAll_targetK (rows : List (List String)) (t : AnoTester) :
    (addAll t rows).targetKValue = t.targetKValue := by
  induction rows generalizing t with
  | nil => rfl
  | cons row rest ih =>
    rw [addAll, ih]
    rfl

theorem eval_snd (t : AnoTester) : (t.eval).2 = t.finalEncoder.getMinFreq := by
  rw [AnoTester.eval]
  split <;> rfl

theorem eval_fst_iff (t : AnoTester) : (t.eval).1 = true ↔ t.targetKValue ≤ (t.eval).2 := by
  rw [AnoTester.eval]
  by_cases h : t.finalEncoder.getMinFreq < t.targetKValue
  · rw [if_pos h]
    constructor
    · intro hfalse
      exact absurd hfalse (by simp)
    · intro hk
      omega
  · rw [if_neg h]
    constructor
    · intro _
      omega
    · intro _
      rfl

/-- C1, corrected: at finalization the tester reports
`value = min(65535, registry frequencies)` and `result = (value ≥ k)`; the
registry frequencies of the stream total the stream length, and an *empty*
stream leaves the registry empty, so its reported value is the sentinel 65535
— not 0 as the original claim states. -/
theorem c1_eval_min_freq (n k : ℕ) (rows : List (List String)) :
    ((addAll (AnoTester.new n k) rows).eval.1 = true ↔
        k ≤ (addAll (AnoTester.new n k) rows).eval.2) ∧
    (addAll (AnoTester.new n k) rows).eval.2 ≤ 65535 ∧
    (∀ f ∈ List.map Prod.snd (addAll (AnoTester.new n k) rows).finalEncoder.freqDict,
        (addAll (AnoTester.new n k) rows).eval.2 ≤ f) ∧
    ((addAll (AnoTester.new n k) rows).eval.2 = 65535 ∨
        (addAll (AnoTester.new n k) rows).eval.2
          ∈ List.map Prod.snd (addAll (AnoTester.new n k) rows).finalEncoder.freqDict) ∧
    (List.map Prod.snd (addAll (AnoTester.new n k) rows).finalEncoder.freqDict).sum
        = rows.length ∧
    (rows = [] → (addAll (AnoTester.new n k) rows).finalEncoder.freqDict = []
        ∧ (addAll (AnoTester.new n k) rows).eval.2 = 65535) := by
  set t := addAll (AnoTester.new n k) rows with ht
  obtain ⟨h1, h2, h3⟩ := getMinFreq_fold_spec t.finalEncoder.freqDict 65535
  have hsnd : (t.eval).2 = t.finalEncoder.getMinFreq := eval_snd t
  have hmin : t.finalEncoder.getMinFreq
      = t.finalEncoder.freqDict.foldl
          (fun minFreq kv => if kv.2 < minFreq then kv.2 else minFreq) 65535 := rfl
  refine ⟨?_, ?_, ?_, ?_, ?_, ?_⟩
  · have := eval_fst_iff t
    rwa [ht, addAll_targetK] at this
  · rw [hsnd, hmin]
    exact h1
  · intro f hf
    rw [hsnd, hmin]
    exact h2 f hf
  · rw [hsnd, hmin]
    exact h3
  · have := addAll_freq_sum rows (AnoTester.new n k)
    simpa [AnoTester.new, AnoEncoder.initState] using this
  · intro hrows
    subst hrows
    exact ⟨rfl, by rw [hsnd]; rfl⟩

/-- Witness for C1 (corrected form), at a concrete nonempty stream: two equal
rows and one distinct row over one column, k = 2: value 1, result false. -/
theorem c1_eval_min_freq_witness :
    ((addAll (AnoTester.new 1 2) [["x"], ["x"], ["y"]]).eval = (false, 1)) ∧
    (addAll (AnoTester.new 1 2) [["x"], ["x"], ["y"]]).eval.2 ≤ 65535 ∧
    (List.map Prod.snd
        (addAll (AnoTester.new 1 2) [["x"], ["x"], ["y"]]).finalEncoder.freqDict).sum = 3 := by
  refine ⟨by decide, (c1_eval_min_freq 1 2 [["x"], ["x"], ["y"]]).2.1,
    (c1_eval_min_freq 1 2 [["x"], ["x"], ["y"]]).2.2.2.2.1⟩

/-- Counterexample to C1 as stated: for the empty stream the tester reports
value 65535 (the fold's sentinel), not 0, and the result is `true`. -/
theorem c1_empty_stream_counterexample :
    (addAll (AnoTester.new 3 2) []).eval = (true, 65535) ∧
    ¬ (addAll (AnoTester.new 3 2) []).eval.2 = 0 := by
  decide

/-! ## Export helpers (`process/util/db/external.go`) -/

/-- `model.AnoOption` (core/model/process.go); Go zero values as defaults. -/
structure AnoOption where
  fore : String := ""
  aft : String := ""
  maskChar : String := ""
  keepLength : String := ""
  algorithm : String := ""
  position : ℤ := 0
  unit : String := ""
  key : String := ""
  digest : String := ""
  lower : String := ""
  upper : String := ""
  bin : String := ""
  linear : String := ""

/-- `model.AnoParamOption`. -/
structure AnoParamOption where
  method : String := ""
  options : AnoOption := {}
  level : ℤ := 0
  description : String := ""

/-- `model.Evaluation`. -/
structure Evaluation where
  apiName : String
  result : String
  value : ℤ
deriving DecidableEq

/-- Counting loop of `checkAnoEvaluationCondition`: `count` is incremented
once per entry until the loop breaks at the first entry with `Level > 0`.
The Go `map` is modelled as an association list in iteration order. -/
def countUntilPositiveLevel : List (String × AnoParamOption) → ℕ
  | [] => 0
  | (_, option) :: rest =>
    if 0 < option.level then 0 else countUntilPositiveLevel rest + 1

/-- `checkAnoEvaluationCondition`: false on an empty map; otherwise false
exactly when the counting loop ran through the whole map. -/
def checkAnoEvaluationCondition (didOptions : List (String × AnoParamOption)) : Bool :=
  let total := didOptions.length
  if total = 0 then false
  else
    let count := countUntilPositiveLevel didOptions
    if total = count then false else true

/-- Tail of `writeExportedData`/`writeExportedDataOnLambda`: the `Evaluation`
published on the completion channel — `{name, "none", 0}` when evaluation is
disabled, the tester's verdict otherwise. -/
def finalEvaluation (name : String) (isEval : Bool) (t : AnoTester) : Evaluation :=
  if isEval then
    { apiName := name, result := formatBool (t.eval).1, value := ((t.eval).2 : ℤ) }
  else
    { apiName := name, result := "none", value := 0 }

theorem countUntilPositiveLevel_le (l : List (String × AnoParamOption)) :
    countUntilPositiveLevel l ≤ l.length := by
  induction l with
  | nil => simp [countUntilPositiveLevel]
  | cons kv rest ih =>
    obtain ⟨k, option⟩ := kv
    rw [countUntilPositiveLevel]
    split
    · simp
    · simp only [List.length_cons]
      omega

theorem countUntilPositiveLevel_eq_length_iff (l : List (String × AnoParamOption)) :
    countUntilPositiveLevel l = l.length ↔ ∀ kv ∈ l, ¬ 0 < kv.2.level := by
  induction l with
  | nil => simp [countUntilPositiveLevel]
  | cons kv rest ih =>
    obtain ⟨k, option⟩ := kv
    rw [countUntilPositiveLevel]
    by_cases hpos : 0 < option.level
    · rw [if_pos hpos]
      simp only [List.length_cons]
      constructor
      · intro h
        omega
      · intro h
        exact absurd hpos (by simpa using h (k, option) (by simp))
    · rw [if_neg hpos]
      simp only [List.length_cons, Nat.add_right_cancel_iff, ih]
      constructor
      · intro h kv2 hkv2
        rcases List.mem_cons.mp hkv2 with rfl | hkv2
        · exact hpos
        · exact h kv2 hkv2
      · intro h kv2 hkv2
        exact h kv2 (List.mem_cons_of_mem _ hkv2)

/-- C2: k-anonymity evaluation is enabled iff some column's policy has
`level > 0` — a property of the entry set only, so insensitive to map
iteration order — and when it is disabled the export publishes the
`Evaluation` with the literal result `"none"` and value 0. -/
theorem c2_evaluation_condition (opts : List (String × AnoParamOption)) :
    (checkAnoEvaluationCondition opts = true ↔ ∃ kv ∈ opts, 0 < kv.2.level) ∧
    (∀ opts2 : List (String × AnoParamOption), opts.Perm opts2 →
      checkAnoEvaluationCondition opts = checkAnoEvaluationCondition opts2) ∧
    (checkAnoEvaluationCondition opts = false →
      ∀ (name : String) (t : AnoTester),
        finalEvaluation name (checkAnoEvaluationCondition opts) t
          = ⟨name, "none", 0⟩) := by
  have key : ∀ l : List (String × AnoParamOption),
      checkAnoEvaluationCondition l = true ↔ ∃ kv ∈ l, 0 < kv.2.level := by
    intro l
    cases l with
    | nil => simp [checkAnoEvaluationCondition]
    | cons kv rest =>
      simp only [checkAnoEvaluationCondition]
      rw [if_neg (by simp)]
      by_cases heq : (kv :: rest).length = countUntilPositiveLevel (kv :: rest)
      · rw [if_pos heq]
        have hall := (countUntilPositiveLevel_eq_length_iff (kv :: rest)).mp heq.symm
        constructor
        · intro h
          exact absurd h (by decide)
        · intro ⟨kv2, hkv2, hpos⟩
          exact absurd hpos (hall kv2 hkv2)
      · rw [if_neg heq]
        constructor
        · intro _
          by_contra hnone
          push_neg at hnone
          exact heq ((countUntilPositiveLevel_eq_length_iff (kv :: rest)).mpr
            (fun kv2 h2 => not_lt.mpr (hnone kv2 h2))).symm
        · intro _
          rfl
  refine ⟨key opts, ?_, ?_⟩
  · intro opts2 hperm
    have h1 := key opts
    have h2 := key opts2
    by_cases hex : ∃ kv ∈ opts, 0 < kv.2.level
    · rw [h1.mpr hex, (h2.mpr (by
        obtain ⟨kv, hkv, hpos⟩ := hex
        exact ⟨kv, hperm.mem_iff.mp hkv, hpos⟩))]
    · have hex2 : ¬ ∃ kv ∈ opts2, 0 < kv.2.level := by
        intro ⟨kv, hkv, hpos⟩
        exact hex ⟨kv, hperm.mem_iff.mpr hkv, hpos⟩
      cases hv : checkAnoEvaluationCondition opts with
      | false =>
        cases hv2 : checkAnoEvaluationCondition opts2 with
        | false => rfl
        | true => exact absurd (h2.mp hv2) hex2
      | true => exact absurd (h1.mp hv) hex
  · intro hfalse name t
    rw [hfalse, finalEvaluation, if_neg (by simp)]

/-- Witness for C2: a policy with one level-0 column is disabled and reports
`"none"`/0; adding a level-1 column enables evaluation. -/
theorem c2_evaluation_condition_witness :
    checkAnoEvaluationCondition [("a", { level := 0 })] = false ∧
    finalEvaluation "api" (checkAnoEvaluationCondition [("a", { level := 0 })])
        (AnoTester.new 1 2) = ⟨"api", "none", 0⟩ ∧
    checkAnoEvaluationCondition [("a", { level := 0 }), ("b", { level := 1 })] = true := by
  have hd : checkAnoEvaluationCondition [("a", { level := 0 })] = false := by decide
  refine ⟨hd, (c2_evaluation_condition [("a", { level := 0 })]).2.2 hd "api" (AnoTester.new 1 2),
    (c2_evaluation_condition [("a", { level := 0 }), ("b", { level := 1 })]).1.mpr ?_⟩
  exact ⟨("b", { level := 1 }), by simp, by norm_num⟩

/-! ## Queue sizing (`Ex_exportData` / `Ex_exportDataOnLambda`)

`strconv.ParseInt(os.Getenv("QUEUE_SIZE"), 10, 64)` is modelled by an
`Option ℤ` argument: `none` covers both an absent `QUEUE_SIZE` variable
(`os.Getenv` returns `""`, which does not parse) and an unparsable one. -/

/-- Queue capacity chosen by `Ex_exportData` (the HTTP/echo path): the parsed
`QUEUE_SIZE`, or 50000 when parsing failed — despite the comment above it
saying "default: 10,000". -/
def exportDataQueueSize (envQueueSize : Option ℤ) : ℤ :=
  match envQueueSize with
  | some n => n
  | none => 50000

/-- Queue capacity chosen by `Ex_exportDataOnLambda`: the parsed
`QUEUE_SIZE`, or 10000 when parsing failed. -/
def exportDataOnLambdaQueueSize (envQueueSize : Option ℤ) : ℤ :=
  match envQueueSize with
  | some n => n
  | none => 10000

/-- The three data channels (`iDataQueue`, `tDataQueue`, `aDataQueue`) are all
created with the same capacity `queueSize`. -/
def exportChannelCapacities (queueSize : ℤ) : ℤ × ℤ × ℤ :=
  (queueSize, queueSize, queueSize)

/-- C6, code bug: with `QUEUE_SIZE` absent or unparsable the three queues do
share one capacity on each path, but `Ex_exportData` defaults that capacity
to 50000, contradicting both the spec and the comment in the code itself
("default: 10,000"); only the Lambda path defaults to 10000. -/
theorem c6_queue_default_mismatch :
    (∀ envQueueSize q1 q2 q3,
      exportChannelCapacities (exportDataQueueSize envQueueSize) = (q1, q2, q3) →
        q1 = q2 ∧ q2 = q3) ∧
    exportDataOnLambdaQueueSize none = 10000 ∧
    exportDataQueueSize none = 50000 ∧
    exportDataQueueSize none ≠ 10000 := by
  refine ⟨?_, rfl, rfl, by decide⟩
  intro envQueueSize q1 q2 q3 h
  rw [exportChannelCapacities] at h
  injection h with h1 h23
  injection h23 with h2 h3
  subst h1
  subst h2
  subst h3
  exact ⟨rfl, rfl⟩

/-- Witness for C6 at the concrete failing input (`QUEUE_SIZE` unset). -/
theorem c6_queue_default_mismatch_witness :
    (exportChannelCapacities (exportDataQueueSize none) = (50000, 50000, 50000) →
      (50000 : ℤ) = 50000 ∧ (50000 : ℤ) = 50000) ∧
    exportDataQueueSize none = 50000 := by
  exact ⟨fun h => (c6_queue_default_mismatch.1 none 50000 50000 50000 h), rfl⟩

/-! ## Row normalization (`transformQueryResult` / `transformToString`)

A scanned field value, as produced by `sqlx`'s `MapScan`: the driver hands
back `int64`, `uint64`, `float64`, `bool`, `string`, `time.Time`, `[]byte`
or `nil`.  `reflect.ValueOf(v).Kind().String()` on each of these dynamic
types gives the strings in `reflectKindString`; note that for a `time.Time`
the kind is that of the underlying struct, `"struct"`, never `"time.time"`. -/

/-- Calendar components of a Go `time.Time` (the fields its `Format` call
reads; the location offset never appears in the layout used here). -/
structure GoTime where
  year : ℕ
  month : ℕ
  day : ℕ
  hour : ℕ
  minute : ℕ
  second : ℕ

/-- `time.Time.Format("2006-01-02T15:04:05")`: zero-padded local calendar
fields, no timezone suffix. -/
def goTimeLayout (t : GoTime) : String :=
  String.mk (padZeros 4 (natDecimal t.year) ++ '-' :: padZeros 2 (natDecimal t.month)
    ++ '-' :: padZeros 2 (natDecimal t.day) ++ 'T' :: padZeros 2 (natDecimal t.hour)
    ++ ':' :: padZeros 2 (natDecimal t.minute) ++ ':' :: padZeros 2 (natDecimal t.second))

/-- Dynamic value of one scanned field. -/
inductive GoValue where
  | vInt : ℤ → GoValue
  | vUint : ℕ → GoValue
  | vFloat : ℚ → GoValue
  | vBool : Bool → GoValue
  | vString : String → GoValue
  | vTime : GoTime → GoValue
  | vBytes : List Char → GoValue
  | vNil : GoValue

/-- `reflect.ValueOf(v).Kind().String()` on each dynamic type the driver
produces. -/
def reflectKindString : GoValue → String
  | .vInt _ => "int64"
  | .vUint _ => "uint64"
  | .vFloat _ => "float64"
  | .vBool _ => "bool"
  | .vString _ => "string"
  | .vTime _ => "struct"
  | .vBytes _ => "slice"
  | .vNil => "invalid"

/-- `transformToString`: switch on the scan-type string; the Go type
assertions (`elem.(int64)` and so on) panic on a mismatch, modelled by
`none`.  `strconv.FormatFloat(x, 'f', -6, 64)` uses the shortest form (any
negative precision does), modelled by `goFmtFloat`. -/
def transformToString (scanType : String) (elem : GoValue) : Option String :=
  match scanType with
  | "int" | "int8" | "int16" | "int32" | "int64" =>
    match elem with
    | .vInt n => some (intDecimal n)
    | _ => none
  | "uint" | "uint8" | "uint16" | "uint32" | "uint64" | "uintptr" =>
    match elem with
    | .vUint n => some (String.mk (natDecimal n))
    | _ => none
  | "float32" | "float64" =>
    match elem with
    | .vFloat q => some (goFmtFloat q)
    | _ => none
  | "bool" =>
    match elem with
    | .vBool b => some (formatBool b)
    | _ => none
  | "string" =>
    match elem with
    | .vString s => some s
    | _ => none
  | "time.time" =>
    match elem with
    | .vTime t => some (goTimeLayout t)
    | _ => none
  | "sql.RawBytes" | "slice" =>
    match elem with
    | .vBytes l => some (String.mk l)
    | _ => none
  | _ => some "-/-"

/-- Per-field conversion done by `transformQueryResult`:
`transformToString(reflect.ValueOf(v[key]).Kind().String(), v[key])`. -/
def convertField (elem : GoValue) : Option String :=
  transformToString (reflectKindString elem) elem

/-- C4, code bug: the normalizer passes the reflect *kind* of the scanned
value, which for a `time.Time` is `"struct"`, so the `"time.time"` branch —
the one that would produce `YYYY-MM-DDTHH:MM:SS` as the spec states — is
unreachable, and every timestamp field is emitted as the default branch's
dash-slash-dash fallback marker instead. -/
theorem c4_timestamp_normalization_bug :
    (∀ t : GoTime, convertField (GoValue.vTime t) = some "-/-") ∧
    (∀ t : GoTime, transformToString "time.time" (GoValue.vTime t) = some (goTimeLayout t)) ∧
    goTimeLayout ⟨2021, 1, 2, 3, 4, 5⟩ = "2021-01-02T03:04:05" ∧
    convertField (GoValue.vTime ⟨2021, 1, 2, 3, 4, 5⟩) = some "-/-" ∧
    (∀ n : ℤ, convertField (GoValue.vInt n) = some (intDecimal n)) := by
  refine ⟨fun t => rfl, fun t => rfl, by decide, rfl, fun n => rfl⟩

/-! ## Masker (`BuildMaskingFunc` in process/util/did)

Go byte strings are modelled as `List Char` (one entry per byte; `len` and
slicing are positional in both).  Out-of-range slicing panics in Go; here the
masking function returns `none`. -/

/-- Go slice expression `l[i:j]` — defined only for `0 ≤ i ≤ j ≤ len(l)`,
panic (`none`) otherwise. -/
def goSlice (l : List Char) (i j : ℤ) : Option (List Char) :=
  if 0 ≤ i ∧ i ≤ j ∧ j ≤ (l.length : ℤ) then
    some ((l.take j.toNat).drop i.toNat)
  else none

/-- The mask pool built once per function: `strings.Repeat(maskChar, 256)`
("assume the Maximum Length of field is less than 256"). -/
def maskPool (maskChar : List Char) : List Char :=
  (List.replicate 256 maskChar).flatten

/-- The closure returned by `BuildMaskingFunc` after its options parsed to
`fore`, `aft`, `maskChar` and `keepLength`; `none` models a panic. -/
def maskingInner (fore aft : ℤ) (maskChar : List Char) (keepLength : Bool)
    (inString : List Char) : Option (List Char) :=
  if inString = [] then some []
  else if (inString.length : ℤ) ≥ fore + aft then
    if keepLength then
      let maskLen := (inString.length : ℤ) - fore - aft
      match goSlice inString 0 fore, goSlice (maskPool maskChar) 0 maskLen,
          goSlice inString ((inString.length : ℤ) - aft) (inString.length : ℤ) with
      | some front, some middle, some back => some (front ++ middle ++ back)
      | _, _, _ => none
    else
      match goSlice inString 0 fore,
          goSlice inString ((inString.length : ℤ) - aft) (inString.length : ℤ) with
      | some front, some back => some (front ++ maskChar ++ back)
      | _, _ => none
  else some []

/-- `BuildMaskingFunc`: parse the four options (failures become constant
error-string functions, never panics), then the masking closure. -/
def buildMaskingFunc (options : AnoOption) : List Char → Option (List Char) :=
  match parseInt options.fore with
  | none => fun _ => some ("fore parameter error").data
  | some fore =>
    match parseInt options.aft with
    | none => fun _ => some ("aft parameter error").data
    | some aft =>
      match parseBool options.keepLength with
      | none => fun _ => some ("keepLength parameter error").data
      | some keepLength => maskingInner fore aft options.maskChar.data keepLength

theorem maskPool_length (maskChar : List Char) :
    (maskPool maskChar).length = 256 * maskChar.length := by
  rw [maskPool, List.length_flatten, List.map_replicate, List.sum_replicate, smul_eq_mul]

/-- C10: with `keepLength=true` and non-negative `fore`/`aft`, the masking
closure returns a string exactly when `len(input) − fore − aft` (truncated at
zero) is at most `256·len(maskChar)`, and panics otherwise — in particular,
with an empty `maskChar` it panics on every input with a positive mask
length. -/
theorem c10_masking_totality (fore aft : ℕ) (maskChar : List Char) (inString : List Char) :
    ((maskingInner (fore : ℤ) (aft : ℤ) maskChar true inString).isSome ↔
      inString.length - fore - aft ≤ 256 * maskChar.length) ∧
    (maskChar = [] →
      ((maskingInner (fore : ℤ) (aft : ℤ) maskChar true inString) = none ↔
        fore + aft < inString.length)) := by
  have main : (maskingInner (fore : ℤ) (aft : ℤ) maskChar true inString).isSome ↔
      inString.length - fore - aft ≤ 256 * maskChar.length := by
    rw [maskingInner]
    by_cases hemp : inString = []
    · rw [if_pos hemp]
      subst hemp
      simp
    · rw [if_neg hemp]
      by_cases hlen : (inString.length : ℤ) ≥ (fore : ℤ) + (aft : ℤ)
      · rw [if_pos hlen, if_pos rfl]
        have hfront : goSlice inString 0 (fore : ℤ) = some ((inString.take fore).drop 0) := by
          rw [goSlice, if_pos (by constructor <;> omega)]
          norm_num
        have hback : goSlice inString ((inString.length : ℤ) - (aft : ℤ))
            (inString.length : ℤ)
            = some ((inString.take inString.length).drop ((inString.length : ℤ) - aft).toNat) := by
          rw [goSlice, if_pos (by refine ⟨by omega, by omega, by omega⟩)]
          norm_num
        rw [hfront, hback]
        by_cases hmask : (inString.length : ℤ) - fore - aft ≤ ((maskPool maskChar).length : ℤ)
        · have hmid : goSlice (maskPool maskChar) 0 ((inString.length : ℤ) - fore - aft)
              = some (((maskPool maskChar).take
                  ((inString.length : ℤ) - fore - aft).toNat).drop 0) := by
            rw [goSlice, if_pos (by refine ⟨by omega, by omega, hmask⟩)]
            norm_num
          simp only [hmid, Option.isSome_some, true_iff]
          rw [maskPool_length] at hmask
          omega
        · have hmid : goSlice (maskPool maskChar) 0 ((inString.length : ℤ) - fore - aft)
              = none := by
            rw [goSlice, if_neg]
            intro ⟨_, _, hc⟩
            exact hmask hc
          simp only [hmid, Option.isSome_none, Bool.false_eq_true, false_iff]
          rw [maskPool_length] at hmask
          omega
      · rw [if_neg hlen]
        simp only [Option.isSome_some, true_iff]
        omega
  refine ⟨main, fun hmc => ?_⟩
  subst hmc
  constructor
  · intro hnone
    have := main.not
    rw [hnone] at this
    simp only [Option.isSome_none, Bool.false_eq_true, false_iff, not_not] at this
    have h2 := this.mp (by simp)
    simp at h2
    omega
  · intro hlt
    cases hsome : maskingInner (fore : ℤ) (aft : ℤ) [] true inString with
    | none => rfl
    | some out =>
      have := main.mp (by rw [hsome]; rfl)
      simp at this
      omega

/-- Witness for C10: `fore=1, aft=1, maskChar="*"` masks `"abcdef"` totally,
while an empty `maskChar` panics on `"abc"` (mask length 1 > 0). -/
theorem c10_masking_totality_witness :
    ((maskingInner 1 1 ['*'] true "abcdef".data).isSome ↔
      "abcdef".data.length - 1 - 1 ≤ 256 * ['*'].length) ∧
    (maskingInner 1 1 ([] : List Char) true "abc".data = none ↔ 1 + 1 < "abc".data.length) ∧
    maskingInner 1 1 ['*'] true "abcdef".data = some "a****f".data ∧
    maskingInner 1 1 ([] : List Char) true "abc".data = none := by
  exact ⟨(c10_masking_totality 1 1 ['*'] "abcdef".data).1,
    (c10_masking_totality 1 1 [] "abc".data).2 rfl, by decide, by decide⟩

/-! ## Encryptor (`BuildEncryptingFunc` in process/util/did)

The digest object (`hmac.New(...)` / `sha256.New()` / `md5.New()`) is a
stateful accumulator: `Write` appends bytes, `Sum(nil)` returns the digest of
everything written since the last reset, `Reset` clears.  The digest
computation itself (SHA-256, MD5, HMAC keyed by the option's key) is an
opaque function `hash` from written bytes to digest bytes; the claims hold
for every such function of the right output size. -/

/-- One hexadecimal digit from Go's lowercase `hextable`. -/
def hexDigitChar : ℕ → Char
  | 0 => '0'
  | 1 => '1'
  | 2 => '2'
  | 3 => '3'
  | 4 => '4'
  | 5 => '5'
  | 6 => '6'
  | 7 => '7'
  | 8 => '8'
  | 9 => '9'
  | 10 => 'a'
  | 11 => 'b'
  | 12 => 'c'
  | 13 => 'd'
  | 14 => 'e'
  | 15 => 'f'
  | _ => '*'

/-- `hex.EncodeToString`: two lowercase hex digits per byte. -/
def hexEncodeBytes (bytes : List ℕ) : List Char :=
  bytes.flatMap (fun b => [hexDigitChar (b / 16), hexDigitChar (b % 16)])

/-- A Go streaming digest object. -/
structure GoDigest where
  hash : List ℕ → List ℕ
  written : List ℕ

/-- `mac.Write(p)`. -/
def GoDigest.write (d : GoDigest) (p : List ℕ) : GoDigest :=
  { d with written := d.written ++ p }

/-- `mac.Sum(nil)`. -/
def GoDigest.sum (d : GoDigest) : List ℕ := d.hash d.written

/-- `mac.Reset()`. -/
def GoDigest.reset (d : GoDigest) : GoDigest := { d with written := [] }

/-- The closure built by `BuildEncryptingFunc` for a known algorithm:
`mac.Write([]byte(inString))`, return the hex of `mac.Sum(nil)`, and
`defer mac.Reset()`.  Returns the output together with the digest state left
for the next invocation. -/
def encryptingStep (d : GoDigest) (inString : List ℕ) : String × GoDigest :=
  let d1 := d.write inString
  (String.mk (hexEncodeBytes d1.sum), d1.reset)

/-- Successive invocations of the closure on a list of inputs, threading the
shared digest state. -/
def encryptingRun (d : GoDigest) : List (List ℕ) → List String
  | [] => []
  | x :: xs =>
    let r := encryptingStep d x
    r.1 :: encryptingRun r.2 xs

/-- Digest family selected by the algorithm/digest options. -/
inductive DigestKind where
  | sha256 : DigestKind
  | md5 : DigestKind
deriving DecidableEq

/-- Digest output size in bytes. -/
def DigestKind.size : DigestKind → ℕ
  | .sha256 => 32
  | .md5 => 16

/-- Algorithm dispatch of `BuildEncryptingFunc`: `hmac` with digest `sha256`,
`md5`, or anything else (defaulting to SHA-256); `hash(sha256)`;
`hash(md5)`; any other algorithm yields the constant error closure
(`none` here). -/
def buildEncryptingKind (algorithm digest : String) : Option DigestKind :=
  match algorithm with
  | "hmac" =>
    match digest with
    | "sha256" => some .sha256
    | "md5" => some .md5
    | _ => some .sha256
  | "hash(sha256)" => some .sha256
  | "hash(md5)" => some .md5
  | _ => none

theorem encryptingRun_state_free (hash : List ℕ → List ℕ) (inputs : List (List ℕ)) :
    encryptingRun ⟨hash, []⟩ inputs
      = inputs.map (fun x => String.mk (hexEncodeBytes (hash x))) := by
  induction inputs with
  | nil => rfl
  | cons x xs ih =>
    rw [encryptingRun]
    show String.mk (hexEncodeBytes (hash ([] ++ x))) :: encryptingRun ⟨hash, []⟩ xs = _
    rw [List.nil_append, ih, List.map_cons]

theorem hexEncodeBytes_length (bytes : List ℕ) :
    (hexEncodeBytes bytes).length = 2 * bytes.length := by
  induction bytes with
  | nil => rfl
  | cons b rest ih =>
    rw [hexEncodeBytes] at ih ⊢
    rw [List.flatMap_cons, List.length_append, ih, List.length_cons]
    simp only [List.length_cons, List.length_nil]
    omega

theorem hexDigitChar_mem (m : ℕ) (h : m < 16) : hexDigitChar m ∈ "0123456789abcdef".data := by
  interval_cases m <;> decide

theorem hexEncodeBytes_lowercase (bytes : List ℕ) (hb : ∀ b ∈ bytes, b < 256) :
    ∀ c ∈ hexEncodeBytes bytes, c ∈ "0123456789abcdef".data := by
  intro c hc
  rw [hexEncodeBytes] at hc
  rcases List.mem_flatMap.mp hc with ⟨b, hbmem, hcb⟩
  have hblt := hb b hbmem
  simp only [List.mem_cons, List.not_mem_nil, or_false] at hcb
  rcases hcb with rfl | rfl
  · exact hexDigitChar_mem _ (by omega)
  · exact hexDigitChar_mem _ (by omega)

/-- C9: for every known algorithm, the closure built by
`BuildEncryptingFunc` is deterministic — from its initial (reset) state,
every invocation's output depends only on that invocation's input, because
the deferred `Reset` returns the shared digest to the empty state — and
every output is the lowercase hexadecimal of the digest, of length
`2·size`: 64 characters for the SHA-256 variants and 32 for MD5. -/
theorem c9_encryptor_deterministic_hex (algorithm digest : String) (kind : DigestKind)
    (hash : List ℕ → List ℕ)
    (_hkind : buildEncryptingKind algorithm digest = some kind)
    (hhash : ∀ b, (hash b).length = kind.size ∧ ∀ y ∈ hash b, y < 256) :
    (∀ inputs : List (List ℕ),
      encryptingRun ⟨hash, []⟩ inputs
        = inputs.map (fun x => String.mk (hexEncodeBytes (hash x)))) ∧
    (∀ x : List ℕ, (String.mk (hexEncodeBytes (hash x))).length = 2 * kind.size) ∧
    (kind = .sha256 → ∀ x : List ℕ, (String.mk (hexEncodeBytes (hash x))).length = 64) ∧
    (kind = .md5 → ∀ x : List ℕ, (String.mk (hexEncodeBytes (hash x))).length = 32) ∧
    (∀ (x : List ℕ) (c : Char),
      c ∈ (String.mk (hexEncodeBytes (hash x))).data → c ∈ "0123456789abcdef".data) := by
  have hlen : ∀ x : List ℕ, (String.mk (hexEncodeBytes (hash x))).length = 2 * kind.size := by
    intro x
    show (hexEncodeBytes (hash x)).length = 2 * kind.size
    rw [hexEncodeBytes_length, (hhash x).1]
  refine ⟨encryptingRun_state_free hash, hlen, ?_, ?_, ?_⟩
  · intro hk x
    rw [hlen x, hk]
    rfl
  · intro hk x
    rw [hlen x, hk]
    rfl
  · intro x c hc
    exact hexEncodeBytes_lowercase (hash x) (hhash x).2 c hc

/-- Witness for C9 with the all-zero 32-byte digest function. -/
theorem c9_encryptor_deterministic_hex_witness :
    encryptingRun ⟨fun _ => List.replicate 32 0, []⟩ [[1], [1]]
        = [String.mk (hexEncodeBytes (List.replicate 32 0)),
           String.mk (hexEncodeBytes (List.replicate 32 0))] ∧
    (String.mk (hexEncodeBytes (List.replicate 32 0))).length = 64 := by
  have h := c9_encryptor_deterministic_hex "hmac" "sha256" DigestKind.sha256
    (fun _ => List.replicate 32 0) rfl
    (fun b => ⟨by simp [DigestKind.size], fun y hy => by
      have h0 := List.eq_of_mem_replicate hy
      omega⟩)
  exact ⟨h.1 [[1], [1]], h.2.2.1 rfl [1]⟩

/-! ## Rounder (`BuildRoundingFunc` in process/util/did) -/

/-- `math.Pow(10, math.Abs(float64(position)))`. -/
def posPower (position : ℤ) : ℚ := (10 : ℚ) ^ position.natAbs

/-- Body of the `"round"` closure after a successful parse:
`math.Round(value·f)/f` formatted with `position` fractional digits when
`position > 0`, else `math.Round(value/f)·f` with zero fractional digits. -/
def roundApply (position : ℤ) (value : ℚ) : String :=
  if 0 < position then
    formatFixed ((roundHalfAway (value * posPower position) : ℚ) / posPower position)
      position.toNat
  else
    formatFixed ((roundHalfAway (value / posPower position) : ℚ) * posPower position) 0

/-- Body of the `"ceil"` closure after a successful parse. -/
def ceilApply (position : ℤ) (value : ℚ) : String :=
  if 0 < position then
    formatFixed ((⌈value * posPower position⌉ : ℚ) / posPower position) position.toNat
  else
    formatFixed ((⌈value / posPower position⌉ : ℚ) * posPower position) 0

/-- Body of the `"floor"` closure after a successful parse. -/
def floorApply (position : ℤ) (value : ℚ) : String :=
  if 0 < position then
    formatFixed ((⌊value * posPower position⌋ : ℚ) / posPower position) position.toNat
  else
    formatFixed ((⌊value / posPower position⌋ : ℚ) * posPower position) 0

/-- `BuildRoundingFunc`: switch on the algorithm; each closure parses its
input, returning `"parseFloat error:<input>"` on failure. -/
def buildRoundingFunc (options : AnoOption) : String → String :=
  match options.algorithm with
  | "round" => fun inString =>
    match parseFloat inString with
    | some value => roundApply options.position value
    | none => "parseFloat error:" ++ inString
  | "ceil" => fun inString =>
    match parseFloat inString with
    | some value => ceilApply options.position value
    | none => "parseFloat error:" ++ inString
  | "floor" => fun inString =>
    match parseFloat inString with
    | some value => floorApply options.position value
    | none => "parseFloat error:" ++ inString
  | _ => fun _ => "unknown Rounding algorithm"

/-- The specification of rounding half away from zero: `n` is within half of
`q`, and in the tie case `n` is the candidate of larger magnitude. -/
def isHalfAwayRound (q : ℚ) (n : ℤ) : Prop :=
  |q - (n : ℚ)| ≤ 1 / 2 ∧ (|q - (n : ℚ)| = 1 / 2 → |q| ≤ |(n : ℚ)|)

theorem roundHalfAway_isHalfAway (q : ℚ) : isHalfAwayRound q (roundHalfAway q) := by
  rw [roundHalfAway]
  by_cases hq : 0 ≤ q
  · rw [if_pos hq]
    set n := ⌊q + 1 / 2⌋ with hn
    have h1 : (n : ℚ) ≤ q + 1 / 2 := Int.floor_le _
    have h2 : q + 1 / 2 < (n : ℚ) + 1 := Int.lt_floor_add_one _
    constructor
    · rw [abs_le]
      constructor <;> linarith
    · intro htie
      rcases (abs_eq (by norm_num : (0 : ℚ) ≤ 1 / 2)).mp htie with he | he
      · linarith
      · have hnq : (n : ℚ) = q + 1 / 2 := by linarith
        rw [abs_of_nonneg hq, abs_of_nonneg (by linarith : (0 : ℚ) ≤ (n : ℚ))]
        linarith
  · rw [if_neg hq]
    push_neg at hq
    set m := ⌊-q + 1 / 2⌋ with hm
    have h1 : (m : ℚ) ≤ -q + 1 / 2 := Int.floor_le _
    have h2 : -q + 1 / 2 < (m : ℚ) + 1 := Int.lt_floor_add_one _
    have hcast : ((-m : ℤ) : ℚ) = -(m : ℚ) := by push_cast; ring
    constructor
    · rw [hcast, abs_le]
      constructor <;> linarith
    · intro htie
      rw [hcast] at htie ⊢
      rcases (abs_eq (by norm_num : (0 : ℚ) ≤ 1 / 2)).mp htie with he | he
      · have hmq : (m : ℚ) = -q + 1 / 2 := by linarith
        rw [abs_of_neg hq, abs_of_nonpos (by linarith : -(m : ℚ) ≤ 0)]
        linarith
      · linarith

theorem roundHalfAway_intCast (n : ℤ) : roundHalfAway (n : ℚ) = n := by
  rw [roundHalfAway]
  by_cases hn : (0 : ℚ) ≤ (n : ℚ)
  · rw [if_pos hn, Int.floor_eq_iff]
    constructor
    · linarith
    · linarith
  · rw [if_neg hn]
    have h : ⌊-(n : ℚ) + 1 / 2⌋ = -n := by
      rw [Int.floor_eq_iff]
      constructor
      · push_cast
        linarith
      · push_cast
        linarith
    rw [h, neg_neg]

/-! ### Fractional-digit counting for the formatted output -/

/-- Number of characters after the (last) decimal point, 0 when there is no
decimal point. -/
def countFracDigits (s : String) : ℕ :=
  if '.' ∈ s.data then (s.data.reverse.takeWhile (fun c => c ≠ '.')).length else 0

theorem natDecimalGo_chars (P : Char → Prop) (hd : ∀ m, m < 10 → P (digitChar m)) :
    ∀ (fuel n : ℕ) (acc : List Char), (∀ c ∈ acc, P c) →
      ∀ c ∈ natDecimalGo fuel n acc, P c := by
  intro fuel
  induction fuel with
  | zero =>
    intro n acc hacc c hc
    exact hacc c hc
  | succ fuel ih =>
    intro n acc hacc c hc
    rw [natDecimalGo] at hc
    by_cases h10 : n < 10
    · rw [if_pos h10] at hc
      rcases List.mem_cons.mp hc with rfl | hc2
      · exact hd n h10
      · exact hacc c hc2
    · rw [if_neg h10] at hc
      refine ih (n / 10) _ ?_ c hc
      intro c2 hc2
      rcases List.mem_cons.mp hc2 with rfl | hc3
      · exact hd _ (Nat.mod_lt n (by norm_num))
      · exact hacc c2 hc3

theorem natDecimal_no_dot (n : ℕ) : ∀ c ∈ natDecimal n, c ≠ '.' := by
  refine natDecimalGo_chars (fun c => c ≠ '.') ?_ (n + 1) n [] (by simp)
  intro m hm
  interval_cases m <;> decide

theorem padZeros_no_dot (d : ℕ) (l : List Char) (hl : ∀ c ∈ l, c ≠ '.') :
    ∀ c ∈ padZeros d l, c ≠ '.' := by
  intro c hc
  rcases List.mem_append.mp hc with hc | hc
  · have := List.eq_of_mem_replicate hc
    subst this
    decide
  · exact hl c hc

theorem natDecimalGo_length : ∀ (fuel n : ℕ) (acc : List Char) (d : ℕ),
    n < fuel → n < 10 ^ d → 1 ≤ d → (natDecimalGo fuel n acc).length ≤ d + acc.length := by
  intro fuel
  induction fuel with
  | zero =>
    intro n acc d h
    omega
  | succ fuel ih =>
    intro n acc d hfuel hpow hd
    rw [natDecimalGo]
    by_cases h10 : n < 10
    · rw [if_pos h10]
      simp only [List.length_cons]
      omega
    · rw [if_neg h10]
      have hd2 : 2 ≤ d := by
        by_contra hlt
        have : d = 1 := by omega
        subst this
        simp at hpow
        omega
      have hdiv : n / 10 < 10 ^ (d - 1) := by
        have h1 : 10 ^ d = 10 * 10 ^ (d - 1) := by
          rw [← pow_succ']
          congr 1
          omega
        exact Nat.div_lt_of_lt_mul (by omega)
      have hstep := ih (n / 10) (digitChar (n % 10) :: acc) (d - 1)
        (by
          have : 0 < n := by omega
          have := Nat.div_lt_self this (by norm_num : (1 : ℕ) < 10)
          omega)
        hdiv (by omega)
      simp only [List.length_cons] at hstep
      omega

theorem natDecimal_length_le (n d : ℕ) (hn : n < 10 ^ d) (hd : 1 ≤ d) :
    (natDecimal n).length ≤ d := by
  have := natDecimalGo_length (n + 1) n [] d (by omega) hn hd
  simpa using this

theorem padZeros_length (d : ℕ) (l : List Char) (hl : l.length ≤ d) :
    (padZeros d l).length = d := by
  rw [padZeros, List.length_append, List.length_replicate]
  omega

theorem takeWhile_append_of_all (p : Char → Bool) (a b : List Char)
    (h : ∀ c ∈ a, p c = true) : (a ++ b).takeWhile p = a ++ b.takeWhile p := by
  induction a with
  | nil => simp
  | cons x rest ih =>
    rw [List.cons_append, List.takeWhile_cons, if_pos (h x (by simp)), ih (fun c hc => h c (by simp [hc]))]
    rfl

theorem countFracDigits_formatFixed (q : ℚ) (d : ℕ) (hd : 1 ≤ d) :
    countFracDigits (formatFixed q d) = d := by
  rw [formatFixed]
  rw [if_neg (by omega)]
  set n := roundHalfAway (q * (10 : ℚ) ^ d) with hn
  set frac := padZeros d (natDecimal (n.natAbs % 10 ^ d)) with hfrac
  have hfraclen : frac.length = d := by
    rw [hfrac]
    refine padZeros_length _ _ (natDecimal_length_le _ _ ?_ hd)
    exact Nat.mod_lt _ (Nat.pos_pow_of_pos d (by norm_num))
  have hfracdot : ∀ c ∈ frac, (c ≠ '.' : Bool) = true := by
    intro c hc
    have := padZeros_no_dot d _ (natDecimal_no_dot _) c hc
    simpa using this
  rw [countFracDigits]
  rw [if_pos (by simp)]
  have hdata : (String.mk ((if n < 0 then ['-'] else []) ++ natDecimal (n.natAbs / 10 ^ d)
      ++ '.' :: frac)).data
      = ((if n < 0 then ['-'] else []) ++ natDecimal (n.natAbs / 10 ^ d)) ++ '.' :: frac := by
    simp
  rw [hdata, List.reverse_append, List.reverse_cons]
  rw [List.append_assoc]
  rw [takeWhile_append_of_all _ _ _ (fun c hc => hfracdot c (List.mem_reverse.mp hc))]
  have hstop : ((['.'] ++ ((if n < 0 then ['-'] else [])
      ++ natDecimal (n.natAbs / 10 ^ d)).reverse).takeWhile (fun c => c ≠ '.')) = [] := by
    rw [List.singleton_append, List.takeWhile_cons]
    norm_num
  rw [hstop, List.append_nil, List.length_reverse, hfraclen]

theorem countFracDigits_formatFixed_zero (q : ℚ) : countFracDigits (formatFixed q 0) = 0 := by
  rw [formatFixed, if_pos rfl, countFracDigits, if_neg]
  intro hmem
  simp only [String.data] at hmem
  rcases List.mem_append.mp hmem with hc | hc
  · rcases List.mem_ite_nil_right.mp hc with ⟨_, hc2⟩
    simp at hc2
  · exact natDecimal_no_dot _ '.' hc rfl

/-! ## Ranger (`BuildRangingFunc` in process/util/did) -/

/-- The boundary array: `B[i] = lower + ((upper−lower)/bin)·i` for
`i = 0..bin−1`, and `B[bin] = upper`. -/
def buildBoundary (lowBound upBound : ℚ) (binNum : ℕ) : List ℚ :=
  (List.range binNum).map
      (fun (i : ℕ) => lowBound + (upBound - lowBound) / (binNum : ℚ) * (i : ℚ))
    ++ [upBound]

/-- The walking loop of the ranging closure: `before`/`last` hold the printed
form of the previously visited boundary (both start empty). -/
def rangingWalkAux (value : ℚ) (before last : String) : List ℚ → String
  | [] => last ++ " ~ "
  | bound :: rest =>
    if value < bound then before ++ " ~ " ++ goFmtFloat bound
    else rangingWalkAux value (goFmtFloat bound) (goFmtFloat bound) rest

/-- The ranging closure on a parsed value. -/
def rangingWalk (boundary : List ℚ) (value : ℚ) : String :=
  rangingWalkAux value "" "" boundary

/-- `BuildRangingFunc`: parse `lower`, `upper` and `bin` (failures become
constant error closures), build the boundary array, and return the walking
closure (which answers `"parseFloat error:<input>"` on unparsable input). -/
def buildRangingFunc (options : AnoOption) : String → String :=
  match parseFloat options.lower with
  | none => fun _ => "lower parameter error"
  | some lowBound =>
    match parseFloat options.upper with
    | none => fun _ => "upper parameter error"
    | some upBound =>
      match parseInt options.bin with
      | none => fun _ => "bin parameter error"
      | some binNumP =>
        let boundary := buildBoundary lowBound upBound binNumP.toNat
        fun inString =>
          match parseFloat inString with
          | some value => rangingWalk boundary value
          | none => "parseFloat error:" ++ inString

theorem getLastD_of_ne_nil (l : List ℚ) (h : l ≠ []) (x y : ℚ) :
    l.getLastD x = l.getLastD y := by
  rw [List.getLastD_eq_getLast?, List.getLastD_eq_getLast?]
  cases l with
  | nil => simp at h
  | cons a as => rw [List.getLast?_eq_getLast _ (by simp), Option.getD_some, Option.getD_some]

theorem rangingWalkAux_all_le (v : ℚ) :
    ∀ (l : List ℚ) (before last : String), l ≠ [] → (∀ b ∈ l, b ≤ v) →
      rangingWalkAux v before last l = goFmtFloat (l.getLastD 0) ++ " ~ " := by
  intro l
  induction l with
  | nil =>
    intro before last h
    exact absurd rfl h
  | cons b rest ih =>
    intro before last _ hall
    have hb : b ≤ v := hall b (by simp)
    rw [rangingWalkAux, if_neg (by exact not_lt.mpr hb)]
    cases hrest : rest with
    | nil =>
      subst hrest
      rw [rangingWalkAux]
      rfl
    | cons r rs =>
      rw [← hrest]
      have hne : rest ≠ [] := by
        rw [hrest]
        simp
      rw [ih _ _ hne (fun x hx => hall x (by simp [hx]))]
      have h1 : (b :: rest).getLastD 0 = rest.getLastD b := List.getLastD_cons 0 b rest
      rw [h1, getLastD_of_ne_nil rest hne b 0]

theorem rangingWalkAux_found (v : ℚ) :
    ∀ (l1 : List ℚ) (b : ℚ) (l2 : List ℚ) (before last : String),
      (∀ x ∈ l1, x ≤ v) → v < b →
      rangingWalkAux v before last (l1 ++ b :: l2)
        = (if l1.isEmpty then before else goFmtFloat (l1.getLastD 0)) ++ " ~ "
            ++ goFmtFloat b := by
  intro l1
  induction l1 with
  | nil =>
    intro b l2 before last _ hvb
    rw [List.nil_append, rangingWalkAux, if_pos hvb]
    simp [String.append_assoc]
  | cons x rest ih =>
    intro b l2 before last hall hvb
    rw [List.cons_append, rangingWalkAux,
      if_neg (not_lt.mpr (hall x (by simp)))]
    rw [ih b l2 _ _ (fun y hy => hall y (by simp [hy])) hvb]
    by_cases hrest : rest.isEmpty
    · have : rest = [] := List.isEmpty_iff.mp hrest
      subst this
      simp
    · have hne : rest ≠ [] := fun hc => hrest (by simp [hc])
      rw [if_neg hrest, if_neg (by simp [List.isEmpty_cons])]
      have h1 : (x :: rest).getLastD 0 = rest.getLastD x := List.getLastD_cons 0 x rest
      rw [h1, getLastD_of_ne_nil rest hne x 0]

theorem buildBoundary_shape (low up : ℚ) (bin : ℕ) :
    (buildBoundary low up bin).length = bin + 1 ∧
    (∀ i, i < bin →
      (buildBoundary low up bin).getD i 0 = low + (up - low) / (bin : ℚ) * (i : ℚ)) ∧
    (buildBoundary low up bin).getD bin 0 = up := by
  have hlen1 : ((List.range bin).map
      (fun (i : ℕ) => low + (up - low) / (bin : ℚ) * (i : ℚ))).length = bin := by
    rw [List.length_map, List.length_range]
  refine ⟨?_, ?_, ?_⟩
  · rw [buildBoundary, List.length_append, hlen1]
    rfl
  · intro i hi
    rw [buildBoundary]
    rw [List.getD_eq_getElem _ 0 (by rw [List.length_append, hlen1]; simp; omega)]
    rw [List.getElem_append_left (by rw [hlen1]; exact hi)]
    rw [List.getElem_map, List.getElem_range]
  · rw [buildBoundary]
    rw [List.getD_eq_getElem _ 0 (by rw [List.length_append, hlen1]; simp)]
    rw [List.getElem_append_right (by rw [hlen1])]
    simp [hlen1]

theorem goFmtFloat_den_one (q : ℚ) (h : q.den = 1) : goFmtFloat q = intDecimal q.num := by
  rw [goFmtFloat, if_pos h]

/-- C7: on the boundary array `B[i] = lower + ((upper−lower)/bin)·i`,
`B[bin] = upper`, the ranging closure answers the label
`"<prev> ~ <current>"` for the first boundary strictly greater than the
value (the previous boundary's printed form, empty before the first), and
`"<last> ~ "` when the value is at least every boundary; with
`lower=0, upper=10, bin=5`: `3 ↦ "2 ~ 4"`, `4 ↦ "4 ~ 6"` (a boundary value
falls into the upper bin), `10 ↦ "10 ~ "`. -/
theorem c7_ranger :
    (∀ (low up : ℚ) (bin : ℕ), 1 ≤ bin →
      (buildBoundary low up bin).length = bin + 1 ∧
      (∀ i, i < bin →
        (buildBoundary low up bin).getD i 0 = low + (up - low) / (bin : ℚ) * (i : ℚ)) ∧
      (buildBoundary low up bin).getD bin 0 = up) ∧
    (∀ (v : ℚ) (l1 : List ℚ) (b : ℚ) (l2 : List ℚ), (∀ x ∈ l1, x ≤ v) → v < b →
      rangingWalk (l1 ++ b :: l2) v
        = (if l1.isEmpty then "" else goFmtFloat (l1.getLastD 0)) ++ " ~ "
            ++ goFmtFloat b) ∧
    (∀ (v : ℚ) (l : List ℚ), l ≠ [] → (∀ b ∈ l, b ≤ v) →
      rangingWalk l v = goFmtFloat (l.getLastD 0) ++ " ~ ") ∧
    buildRangingFunc { lower := "0", upper := "10", bin := "5" } "3" = "2 ~ 4" ∧
    buildRangingFunc { lower := "0", upper := "10", bin := "5" } "4" = "4 ~ 6" ∧
    buildRangingFunc { lower := "0", upper := "10", bin := "5" } "10" = "10 ~ " := by
  have hlow : parseFloat "0" = some 0 := by
    rw [show parseFloat "0" = some ((digitsVal ['0'] : ℚ)) from rfl,
      show digitsVal ['0'] = 0 from by decide]
    norm_num
  have hup : parseFloat "10" = some 10 := by
    rw [show parseFloat "10" = some ((digitsVal ['1', '0'] : ℚ)) from rfl,
      show digitsVal ['1', '0'] = 10 from by decide]
    norm_num
  have hbin : parseInt "5" = some 5 := by decide
  have hb : buildBoundary 0 10 5 = [0, 2, 4, 6, 8, 10] := by
    rw [buildBoundary]
    norm_num [List.range_succ]
  have hf2 : goFmtFloat (2 : ℚ) = "2" := by
    rw [goFmtFloat_den_one _ (Rat.den_ofNat 2), Rat.num_ofNat]
    decide
  have hf4 : goFmtFloat (4 : ℚ) = "4" := by
    rw [goFmtFloat_den_one _ (Rat.den_ofNat 4), Rat.num_ofNat]
    decide
  have hf6 : goFmtFloat (6 : ℚ) = "6" := by
    rw [goFmtFloat_den_one _ (Rat.den_ofNat 6), Rat.num_ofNat]
    decide
  have hf10 : goFmtFloat (10 : ℚ) = "10" := by
    rw [goFmtFloat_den_one _ (Rat.den_ofNat 10), Rat.num_ofNat]
    decide
  have happly : ∀ (s : String) (v : ℚ), parseFloat s = some v →
      buildRangingFunc { lower := "0", upper := "10", bin := "5" } s
        = rangingWalk (buildBoundary 0 10 5) v := by
    intro s v hs
    simp only [buildRangingFunc, hlow, hup, hbin, hs,
      show ((5 : ℤ)).toNat = 5 from rfl]
  refine ⟨fun low up bin _ => buildBoundary_shape low up bin,
    fun v l1 b l2 h1 h2 => rangingWalkAux_found v l1 b l2 "" "" h1 h2,
    fun v l h1 h2 => rangingWalkAux_all_le v l "" "" h1 h2, ?_, ?_, ?_⟩
  · have hp : parseFloat "3" = some 3 := by
      rw [show parseFloat "3" = some ((digitsVal ['3'] : ℚ)) from rfl,
        show digitsVal ['3'] = 3 from by decide]
      norm_num
    rw [happly "3" 3 hp, hb, rangingWalk]
    rw [rangingWalkAux, if_neg (by norm_num)]
    rw [rangingWalkAux, if_neg (by norm_num)]
    rw [rangingWalkAux, if_pos (by norm_num)]
    rw [hf2, hf4]
    decide
  · have hp : parseFloat "4" = some 4 := by
      rw [show parseFloat "4" = some ((digitsVal ['4'] : ℚ)) from rfl,
        show digitsVal ['4'] = 4 from by decide]
      norm_num
    rw [happly "4" 4 hp, hb, rangingWalk]
    rw [rangingWalkAux, if_neg (by norm_num)]
    rw [rangingWalkAux, if_neg (by norm_num)]
    rw [rangingWalkAux, if_neg (by norm_num)]
    rw [rangingWalkAux, if_pos (by norm_num)]
    rw [hf4, hf6]
    decide
  · have hp : parseFloat "10" = some 10 := hup
    rw [happly "10" 10 hp, hb, rangingWalk]
    rw [rangingWalkAux, if_neg (by norm_num)]
    rw [rangingWalkAux, if_neg (by norm_num)]
    rw [rangingWalkAux, if_neg (by norm_num)]
    rw [rangingWalkAux, if_neg (by norm_num)]
    rw [rangingWalkAux, if_neg (by norm_num)]
    rw [rangingWalkAux, if_neg (by norm_num)]
    rw [rangingWalkAux, hf10]
    decide

/-- Witness for C7's hypothesis-bearing parts at a concrete boundary list. -/
theorem c7_ranger_witness :
    rangingWalk [(0 : ℚ), 2] 1 = goFmtFloat (0 : ℚ) ++ " ~ " ++ goFmtFloat (2 : ℚ) ∧
    rangingWalk [(0 : ℚ), 2] 5 = goFmtFloat (2 : ℚ) ++ " ~ " := by
  constructor
  · have h := c7_ranger.2.1 1 [(0 : ℚ)] 2 [] (by
      intro x hx
      rcases List.mem_singleton.mp hx with rfl
      norm_num) (by norm_num)
    simpa using h
  · have h := c7_ranger.2.2.1 5 [(0 : ℚ), 2] (by simp) (by
      intro b hb
      rcases List.mem_cons.mp hb with rfl | hb2
      · norm_num
      · rcases List.mem_singleton.mp hb2 with rfl
        norm_num)
    simpa using h

theorem formatFixed_int_div_pow (n : ℤ) (d : ℕ) (hd : 1 ≤ d) :
    formatFixed ((n : ℚ) / (10 : ℚ) ^ d) d
      = String.mk ((if n < 0 then ['-'] else []) ++ natDecimal (n.natAbs / 10 ^ d)
          ++ '.' :: padZeros d (natDecimal (n.natAbs % 10 ^ d))) := by
  rw [formatFixed]
  have hq : (n : ℚ) / (10 : ℚ) ^ d * (10 : ℚ) ^ d = (n : ℚ) := by
    field_simp
  rw [hq, roundHalfAway_intCast, if_neg (by omega)]

theorem formatFixed_intCast (n : ℤ) : formatFixed (n : ℚ) 0 = intDecimal n := by
  rw [formatFixed]
  have hq : (n : ℚ) * (10 : ℚ) ^ (0 : ℕ) = (n : ℚ) := by norm_num
  rw [hq, roundHalfAway_intCast, if_pos rfl, intDecimal]
  split
  · simp
  · simp

/-- C8: the `round` Rounder multiplies (for `position > 0`) or divides (for
`position ≤ 0`) by `10^|position|`, applies rounding-half-away-from-zero
(`math.Round`'s contract, characterized by `isHalfAwayRound`), undoes the
scaling, and formats with exactly `position` (respectively zero) fractional
digits; `position=2` maps `"3.14159"` to `"3.14"` and `"3.145"` to `"3.15"`,
and `position=0` maps `"-2.5"` to `"-3"`. -/
theorem c8_rounder :
    (∀ (position : ℤ) (v : ℚ), 0 < position →
      isHalfAwayRound (v * posPower position) (roundHalfAway (v * posPower position)) ∧
      roundApply position v
        = formatFixed ((roundHalfAway (v * posPower position) : ℚ) / posPower position)
            position.toNat ∧
      countFracDigits (roundApply position v) = position.toNat) ∧
    (∀ (position : ℤ) (v : ℚ), position ≤ 0 →
      isHalfAwayRound (v / posPower position) (roundHalfAway (v / posPower position)) ∧
      roundApply position v
        = formatFixed ((roundHalfAway (v / posPower position) : ℚ) * posPower position) 0 ∧
      countFracDigits (roundApply position v) = 0) ∧
    buildRoundingFunc { algorithm := "round", position := 2 } "3.14159" = "3.14" ∧
    buildRoundingFunc { algorithm := "round", position := 2 } "3.145" = "3.15" ∧
    buildRoundingFunc { algorithm := "round", position := 0 } "-2.5" = "-3" := by
  have hpp2 : posPower 2 = (10 : ℚ) ^ (2 : ℕ) := by
    rw [posPower]
    norm_num
  refine ⟨?_, ?_, ?_, ?_, ?_⟩
  · intro position v hpos
    refine ⟨roundHalfAway_isHalfAway _, ?_, ?_⟩
    · rw [roundApply, if_pos hpos]
    · rw [roundApply, if_pos hpos]
      exact countFracDigits_formatFixed _ _ (by omega)
  · intro position v hpos
    refine ⟨roundHalfAway_isHalfAway _, ?_, ?_⟩
    · rw [roundApply, if_neg (by omega)]
    · rw [roundApply, if_neg (by omega)]
      exact countFracDigits_formatFixed_zero _
  · have hp : parseFloat "3.14159" = some (314159 / 100000) := by
      rw [show parseFloat "3.14159"
          = some ((digitsVal ['3'] : ℚ)
              + (digitsVal ['1', '4', '1', '5', '9'] : ℚ)
                / (10 : ℚ) ^ (['1', '4', '1', '5', '9'] : List Char).length) from rfl,
        show digitsVal ['3'] = 3 from by decide,
        show digitsVal ['1', '4', '1', '5', '9'] = 14159 from by decide,
        show (['1', '4', '1', '5', '9'] : List Char).length = 5 from rfl]
      norm_num
    rw [show buildRoundingFunc { algorithm := "round", position := 2 } "3.14159"
        = (match parseFloat "3.14159" with
           | some value => roundApply 2 value
           | none => "parseFloat error:" ++ "3.14159") from rfl, hp]
    show roundApply 2 (314159 / 100000) = "3.14"
    rw [roundApply, if_pos (by norm_num), hpp2]
    have hmul : (314159 / 100000 : ℚ) * (10 : ℚ) ^ (2 : ℕ) = 314159 / 1000 := by
      norm_num
    have hround : roundHalfAway (314159 / 1000 : ℚ) = 314 := by
      rw [roundHalfAway, if_pos (by norm_num), Int.floor_eq_iff]
      constructor
      · norm_num
      · norm_num
    rw [hmul, hround, show Int.toNat 2 = 2 from rfl,
      formatFixed_int_div_pow 314 2 (by norm_num)]
    decide
  · have hp : parseFloat "3.145" = some (629 / 200) := by
      rw [show parseFloat "3.145"
          = some ((digitsVal ['3'] : ℚ)
              + (digitsVal ['1', '4', '5'] : ℚ)
                / (10 : ℚ) ^ (['1', '4', '5'] : List Char).length) from rfl,
        show digitsVal ['3'] = 3 from by decide,
        show digitsVal ['1', '4', '5'] = 145 from by decide,
        show (['1', '4', '5'] : List Char).length = 3 from rfl]
      norm_num
    rw [show buildRoundingFunc { algorithm := "round", position := 2 } "3.145"
        = (match parseFloat "3.145" with
           | some value => roundApply 2 value
           | none => "parseFloat error:" ++ "3.145") from rfl, hp]
    show roundApply 2 (629 / 200) = "3.15"
    rw [roundApply, if_pos (by norm_num), hpp2]
    have hmul : (629 / 200 : ℚ) * (10 : ℚ) ^ (2 : ℕ) = 629 / 2 := by
      norm_num
    have hround : roundHalfAway (629 / 2 : ℚ) = 315 := by
      rw [roundHalfAway, if_pos (by norm_num),
        show (629 / 2 : ℚ) + 1 / 2 = ((315 : ℤ) : ℚ) by norm_num, Int.floor_intCast]
    rw [hmul, hround, show Int.toNat 2 = 2 from rfl,
      formatFixed_int_div_pow 315 2 (by norm_num)]
    decide
  · have hp : parseFloat "-2.5" = some (-(5 / 2)) := by
      rw [show parseFloat "-2.5"
          = (parseDecimalBody ['2', '.', '5']).map (fun q => -q) from rfl,
        show parseDecimalBody ['2', '.', '5']
          = some ((digitsVal ['2'] : ℚ)
              + (digitsVal ['5'] : ℚ) / (10 : ℚ) ^ (['5'] : List Char).length) from rfl,
        show digitsVal ['2'] = 2 from by decide,
        show digitsVal ['5'] = 5 from by decide,
        show (['5'] : List Char).length = 1 from rfl]
      simp only [Option.map]
      norm_num
    rw [show buildRoundingFunc { algorithm := "round", position := 0 } "-2.5"
        = (match parseFloat "-2.5" with
           | some value => roundApply 0 value
           | none => "parseFloat error:" ++ "-2.5") from rfl, hp]
    show roundApply 0 (-(5 / 2)) = "-3"
    rw [roundApply, if_neg (by norm_num)]
    have hpp0 : posPower 0 = 1 := by
      rw [posPower]
      norm_num
    have hdivv : (-(5 / 2) : ℚ) / posPower 0 = -(5 / 2) := by
      rw [hpp0]
      norm_num
    have hround : roundHalfAway (-(5 / 2) : ℚ) = -3 := by
      rw [roundHalfAway, if_neg (by norm_num),
        show (-(-(5 / 2) : ℚ)) + 1 / 2 = ((3 : ℤ) : ℚ) by norm_num, Int.floor_intCast]
    have hmulv : ((-3 : ℤ) : ℚ) * posPower 0 = ((-3 : ℤ) : ℚ) := by
      rw [hpp0]
      norm_num
    rw [hdivv, hround, hmulv, formatFixed_intCast]
    decide

/-- Witness for C8's hypothesis-bearing parts at `position = 2` and
`position = 0`, value one half. -/
theorem c8_rounder_witness :
    (isHalfAwayRound ((1 / 2 : ℚ) * posPower 2) (roundHalfAway ((1 / 2 : ℚ) * posPower 2)) ∧
      roundApply 2 (1 / 2)
        = formatFixed ((roundHalfAway ((1 / 2 : ℚ) * posPower 2) : ℚ) / posPower 2) (2 : ℤ).toNat ∧
      countFracDigits (roundApply 2 (1 / 2)) = (2 : ℤ).toNat) ∧
    countFracDigits (roundApply 0 (1 / 2)) = 0 := by
  exact ⟨c8_rounder.1 2 (1 / 2) (by decide), (c8_rounder.2.1 0 (1 / 2) (by decide)).2.2⟩

/-! ## Row fingerprinting (`AnoTester.AddStrings`, quoted variant)

The repository's second `kAno` variant fingerprints a row with
`fmt.Sprintf("%q", filtered)`: each string is `strconv.Quote`d and the quoted
strings are joined by single spaces between square brackets.  `strconv.Quote`
escapes `"` and `\`, keeps printable runes (`unicode.IsPrint`), uses the
named escapes for the seven control characters that have one, and otherwise
hex escapes (`\xHH` below space and for 0x7f, `\uHHHH` below 0x10000, else
`\UHHHHHHHH`).  The `unicode.IsPrint` table is not reproduced here: the
escaper is parameterized by an arbitrary printability predicate, and every
theorem holds for all of them, in particular Go's. -/

/-- Value of one hexadecimal digit character (inverse of `hexDigitChar`). -/
def hexVal (c : Char) : ℕ :=
  if c.isDigit then c.toNat - 48 else c.toNat - 87

/-- Big-endian fixed-width hexadecimal, as in Go's `\xHH`/`\uHHHH` escapes. -/
def hexFixed : ℕ → ℕ → List Char
  | 0, _ => []
  | w + 1, n => hexFixed w (n / 16) ++ [hexDigitChar (n % 16)]

/-- Value of a big-endian string of hexadecimal digits. -/
def hexValList (l : List Char) : ℕ :=
  l.foldl (fun a c => 16 * a + hexVal c) 0

theorem hexVal_hexDigitChar (m : ℕ) (h : m < 16) : hexVal (hexDigitChar m) = m := by
  interval_cases m <;> decide

theorem hexValList_append_digit (l : List Char) (c : Char) :
    hexValList (l ++ [c]) = 16 * hexValList l + hexVal c := by
  rw [hexValList, hexValList, List.foldl_append, List.foldl_cons, List.foldl_nil]

theorem hexValList_hexFixed : ∀ (w n : ℕ), n < 16 ^ w → hexValList (hexFixed w n) = n := by
  intro w
  induction w with
  | zero =>
    intro n h
    interval_cases n
    rfl
  | succ w ih =>
    intro n h
    rw [hexFixed, hexValList_append_digit, hexVal_hexDigitChar _ (Nat.mod_lt _ (by norm_num)),
      ih (n / 16) (by
        rw [pow_succ] at h
        exact Nat.div_lt_of_lt_mul (by omega))]
    omega

theorem charToNat_lt (c : Char) : c.toNat < 1114112 := by
  have h := c.valid
  rw [Char.toNat]
  rcases h with h | ⟨h1, h2⟩ <;> omega

/-- `strconv.Quote`'s per-rune escaping, parameterized by the printability
predicate (`unicode.IsPrint` in Go). -/
def escapeRune (isPrint : Char → Bool) (c : Char) : List Char :=
  if c = '"' then ['\\', '"']
  else if c = '\\' then ['\\', '\\']
  else if isPrint c then [c]
  else if c.toNat = 7 then ['\\', 'a']
  else if c.toNat = 8 then ['\\', 'b']
  else if c.toNat = 12 then ['\\', 'f']
  else if c.toNat = 10 then ['\\', 'n']
  else if c.toNat = 13 then ['\\', 'r']
  else if c.toNat = 9 then ['\\', 't']
  else if c.toNat = 11 then ['\\', 'v']
  else if c.toNat < 32 ∨ c.toNat = 127 then '\\' :: 'x' :: hexFixed 2 c.toNat
  else if c.toNat < 65536 then '\\' :: 'u' :: hexFixed 4 c.toNat
  else '\\' :: 'U' :: hexFixed 8 c.toNat

/-- Body of a quoted string: each rune escaped. -/
def quoteBody (isPrint : Char → Bool) (s : List Char) : List Char :=
  s.flatMap (escapeRune isPrint)

/-- `strconv.Quote`: the escaped body between double quotes. -/
def goQuote (isPrint : Char → Bool) (s : List Char) : List Char :=
  '"' :: (quoteBody isPrint s ++ ['"'])

/-- Elements of `%q` of a `[]string`, space-separated, with the closing
bracket. -/
def sprintQJoin (isPrint : Char → Bool) : List (List Char) → List Char
  | [] => [']']
  | e :: rest =>
    goQuote isPrint e ++ (if rest.isEmpty then [']'] else ' ' :: sprintQJoin isPrint rest)

/-- `fmt.Sprintf("%q", elems)` for `elems : []string`. -/
def goSprintQ (isPrint : Char → Bool) (elems : List (List Char)) : List Char :=
  '[' :: sprintQJoin isPrint elems

/-- Prepend a character to the decoded part of a decoder result. -/
def consFirst (c : Char) : Option (List Char × List Char) → Option (List Char × List Char)
  | some (s, r) => some (c :: s, r)
  | none => none

/-- Decoder for the body of a quoted string: consumes characters up to an
unescaped closing quote and returns the decoded content together with the
remaining input.  It exists only for the proofs: it is a left inverse of the
quoting above (`unquoteBodyGo_quoteBody`), which makes the fingerprint
rendering injective.  The first argument is fuel, one unit per decoded rune,
making the recursion structural. -/
def unquoteBodyGo : ℕ → List Char → Option (List Char × List Char)
  | 0, _ => none
  | _ + 1, [] => none
  | fuel + 1, c :: rest =>
    if c = '"' then some ([], rest)
    else if c = '\\' then
      match rest with
      | [] => none
      | e :: rest2 =>
        if e = '"' then consFirst '"' (unquoteBodyGo fuel rest2)
        else if e = '\\' then consFirst '\\' (unquoteBodyGo fuel rest2)
        else if e = 'a' then consFirst (Char.ofNat 7) (unquoteBodyGo fuel rest2)
        else if e = 'b' then consFirst (Char.ofNat 8) (unquoteBodyGo fuel rest2)
        else if e = 'f' then consFirst (Char.ofNat 12) (unquoteBodyGo fuel rest2)
        else if e = 'n' then consFirst (Char.ofNat 10) (unquoteBodyGo fuel rest2)
        else if e = 'r' then consFirst (Char.ofNat 13) (unquoteBodyGo fuel rest2)
        else if e = 't' then consFirst (Char.ofNat 9) (unquoteBodyGo fuel rest2)
        else if e = 'v' then consFirst (Char.ofNat 11) (unquoteBodyGo fuel rest2)
        else if e = 'x' then
          match rest2 with
          | d1 :: d2 :: rest3 =>
            consFirst (Char.ofNat (hexValList [d1, d2])) (unquoteBodyGo fuel rest3)
          | _ => none
        else if e = 'u' then
          match rest2 with
          | d1 :: d2 :: d3 :: d4 :: rest3 =>
            consFirst (Char.ofNat (hexValList [d1, d2, d3, d4])) (unquoteBodyGo fuel rest3)
          | _ => none
        else if e = 'U' then
          match rest2 with
          | d1 :: d2 :: d3 :: d4 :: d5 :: d6 :: d7 :: d8 :: rest3 =>
            consFirst (Char.ofNat (hexValList [d1, d2, d3, d4, d5, d6, d7, d8]))
              (unquoteBodyGo fuel rest3)
          | _ => none
        else none
    else consFirst c (unquoteBodyGo fuel rest)

theorem unquoteBodyGo_close (fuel : ℕ) (rest : List Char) :
    unquoteBodyGo (fuel + 1) ('"' :: rest) = some ([], rest) := rfl

theorem unquoteBodyGo_escQuote (fuel : ℕ) (rest : List Char) :
    unquoteBodyGo (fuel + 1) ('\\' :: '"' :: rest)
      = consFirst '"' (unquoteBodyGo fuel rest) := rfl

theorem unquoteBodyGo_escBackslash (fuel : ℕ) (rest : List Char) :
    unquoteBodyGo (fuel + 1) ('\\' :: '\\' :: rest)
      = consFirst '\\' (unquoteBodyGo fuel rest) := rfl

theorem unquoteBodyGo_escA (fuel : ℕ) (rest : List Char) :
    unquoteBodyGo (fuel + 1) ('\\' :: 'a' :: rest)
      = consFirst (Char.ofNat 7) (unquoteBodyGo fuel rest) := rfl

theorem unquoteBodyGo_escB (fuel : ℕ) (rest : List Char) :
    unquoteBodyGo (fuel + 1) ('\\' :: 'b' :: rest)
      = consFirst (Char.ofNat 8) (unquoteBodyGo fuel rest) := rfl

theorem unquoteBodyGo_escF (fuel : ℕ) (rest : List Char) :
    unquoteBodyGo (fuel + 1) ('\\' :: 'f' :: rest)
      = consFirst (Char.ofNat 12) (unquoteBodyGo fuel rest) := rfl

theorem unquoteBodyGo_escN (fuel : ℕ) (rest : List Char) :
    unquoteBodyGo (fuel + 1) ('\\' :: 'n' :: rest)
      = consFirst (Char.ofNat 10) (unquoteBodyGo fuel rest) := rfl

theorem unquoteBodyGo_escR (fuel : ℕ) (rest : List Char) :
    unquoteBodyGo (fuel + 1) ('\\' :: 'r' :: rest)
      = consFirst (Char.ofNat 13) (unquoteBodyGo fuel rest) := rfl

theorem unquoteBodyGo_escT (fuel : ℕ) (rest : List Char) :
    unquoteBodyGo (fuel + 1) ('\\' :: 't' :: rest)
      = consFirst (Char.ofNat 9) (unquoteBodyGo fuel rest) := rfl

theorem unquoteBodyGo_escV (fuel : ℕ) (rest : List Char) :
    unquoteBodyGo (fuel + 1) ('\\' :: 'v' :: rest)
      = consFirst (Char.ofNat 11) (unquoteBodyGo fuel rest) := rfl

theorem unquoteBodyGo_escX (fuel : ℕ) (d1 d2 : Char) (rest : List Char) :
    unquoteBodyGo (fuel + 1) ('\\' :: 'x' :: d1 :: d2 :: rest)
      = consFirst (Char.ofNat (hexValList [d1, d2])) (unquoteBodyGo fuel rest) := rfl

theorem unquoteBodyGo_escU4 (fuel : ℕ) (d1 d2 d3 d4 : Char) (rest : List Char) :
    unquoteBodyGo (fuel + 1) ('\\' :: 'u' :: d1 :: d2 :: d3 :: d4 :: rest)
      = consFirst (Char.ofNat (hexValList [d1, d2, d3, d4])) (unquoteBodyGo fuel rest) := rfl

theorem unquoteBodyGo_escU8 (fuel : ℕ) (d1 d2 d3 d4 d5 d6 d7 d8 : Char) (rest : List Char) :
    unquoteBodyGo (fuel + 1) ('\\' :: 'U' :: d1 :: d2 :: d3 :: d4 :: d5 :: d6 :: d7 :: d8 :: rest)
      = consFirst (Char.ofNat (hexValList [d1, d2, d3, d4, d5, d6, d7, d8]))
          (unquoteBodyGo fuel rest) := rfl

theorem unquoteBodyGo_lit (fuel : ℕ) (c : Char) (rest : List Char)
    (h1 : c ≠ '"') (h2 : c ≠ '\\') :
    unquoteBodyGo (fuel + 1) (c :: rest) = consFirst c (unquoteBodyGo fuel rest) := by
  show (if c = '"' then some ([], rest) else if c = '\\' then _ else
    consFirst c (unquoteBodyGo fuel rest)) = consFirst c (unquoteBodyGo fuel rest)
  rw [if_neg h1, if_neg h2]

theorem hexFixed_two (n : ℕ) :
    hexFixed 2 n = [hexDigitChar (n / 16 % 16), hexDigitChar (n % 16)] := rfl

theorem hexFixed_four (n : ℕ) :
    hexFixed 4 n = [hexDigitChar (n / 16 / 16 / 16 % 16), hexDigitChar (n / 16 / 16 % 16),
      hexDigitChar (n / 16 % 16), hexDigitChar (n % 16)] := rfl

theorem hexFixed_eight (n : ℕ) :
    hexFixed 8 n = [hexDigitChar (n / 16 / 16 / 16 / 16 / 16 / 16 / 16 % 16),
      hexDigitChar (n / 16 / 16 / 16 / 16 / 16 / 16 % 16),
      hexDigitChar (n / 16 / 16 / 16 / 16 / 16 % 16),
      hexDigitChar (n / 16 / 16 / 16 / 16 % 16),
      hexDigitChar (n / 16 / 16 / 16 % 16), hexDigitChar (n / 16 / 16 % 16),
      hexDigitChar (n / 16 % 16), hexDigitChar (n % 16)] := rfl

/-- The decoder inverts the escaper on every quoted body, for any
printability predicate and any sufficient fuel. -/
theorem unquoteBodyGo_quoteBody (isPrint : Char → Bool) :
    ∀ (s rest : List Char) (fuel : ℕ), s.length < fuel →
      unquoteBodyGo fuel (quoteBody isPrint s ++ '"' :: rest) = some (s, rest) := by
  intro s
  induction s with
  | nil =>
    intro rest fuel hfuel
    cases fuel with
    | zero => omega
    | succ f =>
      rw [quoteBody, List.flatMap_nil, List.nil_append, unquoteBodyGo_close]
  | cons c s2 ih =>
    intro rest fuel hfuel
    cases fuel with
    | zero => simp at hfuel
    | succ f =>
      have hf : s2.length < f := by
        simp only [List.length_cons] at hfuel
        omega
      have hbody : quoteBody isPrint (c :: s2) ++ '"' :: rest
          = escapeRune isPrint c ++ (quoteBody isPrint s2 ++ '"' :: rest) := by
        rw [quoteBody, List.flatMap_cons, List.append_assoc]
        rfl
      rw [hbody, escapeRune]
      by_cases h1 : c = '"'
      · rw [if_pos h1]
        show unquoteBodyGo (f + 1) ('\\' :: '"' :: (quoteBody isPrint s2 ++ '"' :: rest)) = _
        rw [unquoteBodyGo_escQuote, ih rest f hf, consFirst, h1]
      · rw [if_neg h1]
        by_cases h2 : c = '\\'
        · rw [if_pos h2]
          show unquoteBodyGo (f + 1) ('\\' :: '\\' :: (quoteBody isPrint s2 ++ '"' :: rest)) = _
          rw [unquoteBodyGo_escBackslash, ih rest f hf, consFirst, h2]
        · rw [if_neg h2]
          by_cases h3 : isPrint c
          · rw [if_pos h3]
            show unquoteBodyGo (f + 1) (c :: (quoteBody isPrint s2 ++ '"' :: rest)) = _
            rw [unquoteBodyGo_lit f c _ h1 h2, ih rest f hf, consFirst]
          · rw [if_neg h3]
            by_cases h7 : c.toNat = 7
            · rw [if_pos h7]
              show unquoteBodyGo (f + 1) ('\\' :: 'a' :: (quoteBody isPrint s2 ++ '"' :: rest)) = _
              rw [unquoteBodyGo_escA, ih rest f hf, consFirst, ← h7, Char.ofNat_toNat]
            · rw [if_neg h7]
              by_cases h8 : c.toNat = 8
              · rw [if_pos h8]
                show unquoteBodyGo (f + 1)
                    ('\\' :: 'b' :: (quoteBody isPrint s2 ++ '"' :: rest)) = _
                rw [unquoteBodyGo_escB, ih rest f hf, consFirst, ← h8, Char.ofNat_toNat]
              · rw [if_neg h8]
                by_cases h12 : c.toNat = 12
                · rw [if_pos h12]
                  show unquoteBodyGo (f + 1)
                      ('\\' :: 'f' :: (quoteBody isPrint s2 ++ '"' :: rest)) = _
                  rw [unquoteBodyGo_escF, ih rest f hf, consFirst, ← h12, Char.ofNat_toNat]
                · rw [if_neg h12]
                  by_cases h10 : c.toNat = 10
                  · rw [if_pos h10]
                    show unquoteBodyGo (f + 1)
                        ('\\' :: 'n' :: (quoteBody isPrint s2 ++ '"' :: rest)) = _
                    rw [unquoteBodyGo_escN, ih rest f hf, consFirst, ← h10, Char.ofNat_toNat]
                  · rw [if_neg h10]
                    by_cases h13 : c.toNat = 13
                    · rw [if_pos h13]
                      show unquoteBodyGo (f + 1)
                          ('\\' :: 'r' :: (quoteBody isPrint s2 ++ '"' :: rest)) = _
                      rw [unquoteBodyGo_escR, ih rest f hf, consFirst, ← h13, Char.ofNat_toNat]
                    · rw [if_neg h13]
                      by_cases h9 : c.toNat = 9
                      · rw [if_pos h9]
                        show unquoteBodyGo (f + 1)
                            ('\\' :: 't' :: (quoteBody isPrint s2 ++ '"' :: rest)) = _
                        rw [unquoteBodyGo_escT, ih rest f hf, consFirst, ← h9, Char.ofNat_toNat]
                      · rw [if_neg h9]
                        by_cases h11 : c.toNat = 11
                        · rw [if_pos h11]
                          show unquoteBodyGo (f + 1)
                              ('\\' :: 'v' :: (quoteBody isPrint s2 ++ '"' :: rest)) = _
                          rw [unquoteBodyGo_escV, ih rest f hf, consFirst, ← h11,
                            Char.ofNat_toNat]
                        · rw [if_neg h11]
                          by_cases hx : c.toNat < 32 ∨ c.toNat = 127
                          · rw [if_pos hx, hexFixed_two]
                            show unquoteBodyGo (f + 1)
                                ('\\' :: 'x' :: hexDigitChar (c.toNat / 16 % 16)
                                  :: hexDigitChar (c.toNat % 16)
                                  :: (quoteBody isPrint s2 ++ '"' :: rest)) = _
                            rw [unquoteBodyGo_escX, ih rest f hf, consFirst,
                              show [hexDigitChar (c.toNat / 16 % 16),
                                  hexDigitChar (c.toNat % 16)] = hexFixed 2 c.toNat from
                                (hexFixed_two c.toNat).symm,
                              hexValList_hexFixed 2 c.toNat (by omega), Char.ofNat_toNat]
                          · rw [if_neg hx]
                            by_cases hu : c.toNat < 65536
                            · rw [if_pos hu, hexFixed_four]
                              show unquoteBodyGo (f + 1) ('\\' :: 'u'
                                  :: hexDigitChar (c.toNat / 16 / 16 / 16 % 16)
                                  :: hexDigitChar (c.toNat / 16 / 16 % 16)
                                  :: hexDigitChar (c.toNat / 16 % 16)
                                  :: hexDigitChar (c.toNat % 16)
                                  :: (quoteBody isPrint s2 ++ '"' :: rest)) = _
                              rw [unquoteBodyGo_escU4, ih rest f hf, consFirst,
                                show [hexDigitChar (c.toNat / 16 / 16 / 16 % 16),
                                    hexDigitChar (c.toNat / 16 / 16 % 16),
                                    hexDigitChar (c.toNat / 16 % 16),
                                    hexDigitChar (c.toNat % 16)] = hexFixed 4 c.toNat from
                                  (hexFixed_four c.toNat).symm,
                                hexValList_hexFixed 4 c.toNat (by omega), Char.ofNat_toNat]
                            · rw [if_neg hu, hexFixed_eight]
                              show unquoteBodyGo (f + 1) ('\\' :: 'U'
                                  :: hexDigitChar (c.toNat / 16 / 16 / 16 / 16 / 16 / 16 / 16 % 16)
                                  :: hexDigitChar (c.toNat / 16 / 16 / 16 / 16 / 16 / 16 % 16)
                                  :: hexDigitChar (c.toNat / 16 / 16 / 16 / 16 / 16 % 16)
                                  :: hexDigitChar (c.toNat / 16 / 16 / 16 / 16 % 16)
                                  :: hexDigitChar (c.toNat / 16 / 16 / 16 % 16)
                                  :: hexDigitChar (c.toNat / 16 / 16 % 16)
                                  :: hexDigitChar (c.toNat / 16 % 16)
                                  :: hexDigitChar (c.toNat % 16)
                                  :: (quoteBody isPrint s2 ++ '"' :: rest)) = _
                              have hbound := charToNat_lt c
                              rw [unquoteBodyGo_escU8, ih rest f hf, consFirst,
                                show [hexDigitChar
                                      (c.toNat / 16 / 16 / 16 / 16 / 16 / 16 / 16 % 16),
                                    hexDigitChar (c.toNat / 16 / 16 / 16 / 16 / 16 / 16 % 16),
                                    hexDigitChar (c.toNat / 16 / 16 / 16 / 16 / 16 % 16),
                                    hexDigitChar (c.toNat / 16 / 16 / 16 / 16 % 16),
                                    hexDigitChar (c.toNat / 16 / 16 / 16 % 16),
                                    hexDigitChar (c.toNat / 16 / 16 % 16),
                                    hexDigitChar (c.toNat / 16 % 16),
                                    hexDigitChar (c.toNat % 16)] = hexFixed 8 c.toNat from
                                  (hexFixed_eight c.toNat).symm,
                                hexValList_hexFixed 8 c.toNat (by norm_num; omega),
                                Char.ofNat_toNat]

theorem quoteBody_cancel (isPrint : Char → Bool) (s1 s2 X Y : List Char)
    (h : quoteBody isPrint s1 ++ '"' :: X = quoteBody isPrint s2 ++ '"' :: Y) :
    s1 = s2 ∧ X = Y := by
  have h1 := unquoteBodyGo_quoteBody isPrint s1 X (s1.length + s2.length + 1) (by omega)
  have h2 := unquoteBodyGo_quoteBody isPrint s2 Y (s1.length + s2.length + 1) (by omega)
  rw [h, h2] at h1
  injection h1 with h3
  injection h3 with h4 h5
  exact ⟨h4.symm, h5.symm⟩

theorem goQuote_append (isPrint : Char → Bool) (e A : List Char) :
    goQuote isPrint e ++ A = '"' :: (quoteBody isPrint e ++ '"' :: A) := by
  rw [goQuote]
  simp [List.append_assoc]

theorem sprintQJoin_inj (isPrint : Char → Bool) : ∀ l1 l2 : List (List Char),
    sprintQJoin isPrint l1 = sprintQJoin isPrint l2 → l1 = l2 := by
  intro l1
  induction l1 with
  | nil =>
    intro l2 h
    cases l2 with
    | nil => rfl
    | cons e2 rest2 =>
      rw [sprintQJoin, sprintQJoin, goQuote_append] at h
      injection h with hh _
      exact absurd hh (by decide)
  | cons e rest ih =>
    intro l2 h
    cases l2 with
    | nil =>
      rw [sprintQJoin, sprintQJoin, goQuote_append] at h
      injection h with hh _
      exact absurd hh (by decide)
    | cons e2 rest2 =>
      rw [sprintQJoin, sprintQJoin, goQuote_append, goQuote_append] at h
      injection h with _ h2
      obtain ⟨he, hA⟩ := quoteBody_cancel isPrint e e2 _ _ h2
      subst he
      cases rest with
      | nil =>
        cases rest2 with
        | nil => rfl
        | cons r2 rs2 =>
          simp only [List.isEmpty_nil, List.isEmpty_cons, if_true] at hA
          rw [if_neg (by simp)] at hA
          injection hA with hh _
          exact absurd hh (by decide)
      | cons r rs =>
        cases rest2 with
        | nil =>
          simp only [List.isEmpty_nil, if_true] at hA
          rw [if_neg (by simp)] at hA
          injection hA with hh _
          exact absurd hh (by decide)
        | cons r2 rs2 =>
          rw [if_neg (by simp), if_neg (by simp)] at hA
          injection hA with _ hA2
          have := ih (r2 :: rs2) hA2
          rw [this]

theorem goSprintQ_inj (isPrint : Char → Bool) (l1 l2 : List (List Char))
    (h : goSprintQ isPrint l1 = goSprintQ isPrint l2) : l1 = l2 := by
  rw [goSprintQ, goSprintQ] at h
  injection h with _ h2
  exact sprintQJoin_inj isPrint l1 l2 h2

/-- The `filtered` array built by the quoted `AddStrings` variant:
`make([]string, fieldLen)` keeps masked-out positions at the zero value `""`
while evaluated positions receive the row's value, preserving the positional
shape.  (Callers pass rows of the mask's length; a shorter row leaves the
remaining positions `""`.) -/
def applyEvalFields : List Bool → List String → List String
  | [], _ => []
  | _ :: bs, [] => "" :: applyEvalFields bs []
  | b :: bs, v :: vs => (if b then v else "") :: applyEvalFields bs vs

/-- The fingerprint registered by the quoted `AddStrings` variant:
`fmt.Sprintf("%q", filtered)`. -/
def fingerprintAddStrings (isPrint : Char → Bool) (evalFields : List Bool)
    (strList : List String) : List Char :=
  goSprintQ isPrint ((applyEvalFields evalFields strList).map String.data)

theorem applyEvalFields_length : ∀ (mask : List Bool) (row : List String),
    (applyEvalFields mask row).length = mask.length := by
  intro mask
  induction mask with
  | nil =>
    intro row
    cases row <;> rfl
  | cons b bs ih =>
    intro row
    cases row with
    | nil =>
      rw [applyEvalFields, List.length_cons, List.length_cons, ih]
    | cons v vs =>
      rw [applyEvalFields, List.length_cons, List.length_cons, ih]

theorem applyEvalFields_getD : ∀ (mask : List Bool) (row : List String) (i : ℕ),
    i < mask.length →
    (applyEvalFields mask row).getD i ""
      = (if mask.getD i false then row.getD i "" else "") := by
  intro mask
  induction mask with
  | nil =>
    intro row i hi
    simp at hi
  | cons b bs ih =>
    intro row i hi
    cases row with
    | nil =>
      cases i with
      | zero => cases b <;> simp [applyEvalFields]
      | succ i =>
        rw [applyEvalFields]
        simp only [List.getD_cons_succ]
        rw [ih [] i (by simpa using hi)]
        simp [List.getD_nil]
    | cons v vs =>
      cases i with
      | zero => cases b <;> simp [applyEvalFields]
      | succ i =>
        rw [applyEvalFields]
        simp only [List.getD_cons_succ]
        exact ih vs i (by simpa using hi)

theorem applyEvalFields_eq_iff : ∀ (mask : List Bool) (row row2 : List String),
    row.length = mask.length → row2.length = mask.length →
    (applyEvalFields mask row = applyEvalFields mask row2 ↔
      ∀ i, i < mask.length → mask.getD i false = true →
        row.getD i "" = row2.getD i "") := by
  intro mask
  induction mask with
  | nil =>
    intro row row2 h1 h2
    have hr : row = [] := List.length_eq_zero.mp (by simpa using h1)
    have hr2 : row2 = [] := List.length_eq_zero.mp (by simpa using h2)
    subst hr
    subst hr2
    simp [applyEvalFields]
  | cons b bs ih =>
    intro row row2 h1 h2
    cases row with
    | nil => simp at h1
    | cons v vs =>
      cases row2 with
      | nil => simp at h2
      | cons w ws =>
        have h1s : vs.length = bs.length := by simpa using h1
        have h2s : ws.length = bs.length := by simpa using h2
        rw [applyEvalFields, applyEvalFields]
        constructor
        · intro h i hi hb
          injection h with hh ht
          cases i with
          | zero =>
            have hbtrue : b = true := by simpa using hb
            subst hbtrue
            simp only [if_true] at hh
            simpa using hh
          | succ i =>
            have := (ih vs ws h1s h2s).mp ht i (by simpa using hi) (by simpa using hb)
            simpa using this
        · intro hpt
          have hh : (if b then v else "") = (if b then w else "") := by
            cases hbv : b
            · simp
            · simp only [if_true]
              have := hpt 0 (by simp) (by simp [hbv])
              simpa using this
          have ht : applyEvalFields bs vs = applyEvalFields bs ws :=
            (ih vs ws h1s h2s).mpr (fun i hi hb => by
              have := hpt (i + 1) (by simpa using hi) (by simpa using hb)
              simpa using this)
          rw [hh, ht]

theorem stringData_injective : Function.Injective String.data := by
  intro a b h
  cases a
  cases b
  exact congrArg String.mk h

/-- C3: the quoted `AddStrings` replaces masked-out columns by the empty
string while keeping the row's positional shape (the filtered sequence has
the mask's length, i.e. the column count), and its `%q` fingerprint is
byte-identical for two rows exactly when they agree on every evaluated
column — for every printability predicate instantiating `unicode.IsPrint`. -/
theorem c3_fingerprint_mask (isPrint : Char → Bool) (mask : List Bool)
    (row row2 : List String) (h1 : row.length = mask.length)
    (h2 : row2.length = mask.length) :
    (applyEvalFields mask row).length = mask.length ∧
    (∀ i, i < mask.length →
      (applyEvalFields mask row).getD i ""
        = (if mask.getD i false then row.getD i "" else "")) ∧
    (fingerprintAddStrings isPrint mask row = fingerprintAddStrings isPrint mask row2 ↔
      ∀ i, i < mask.length → mask.getD i false = true →
        row.getD i "" = row2.getD i "") := by
  refine ⟨applyEvalFields_length mask row, fun i hi => applyEvalFields_getD mask row i hi, ?_⟩
  rw [← applyEvalFields_eq_iff mask row row2 h1 h2]
  constructor
  · intro h
    have hmap := goSprintQ_inj isPrint _ _ h
    exact (List.map_injective_iff.mpr stringData_injective) hmap
  · intro h
    rw [fingerprintAddStrings, fingerprintAddStrings, h]

/-- Witness for C3: mask `[true, false]` — rows agreeing on the first
column fingerprint identically, rows differing there do not. -/
theorem c3_fingerprint_mask_witness :
    (fingerprintAddStrings (fun c => 32 ≤ c.toNat && c.toNat ≤ 126) [true, false] ["a", "x"]
        = fingerprintAddStrings (fun c => 32 ≤ c.toNat && c.toNat ≤ 126) [true, false] ["a", "y"]) ∧
    ¬ (fingerprintAddStrings (fun c => 32 ≤ c.toNat && c.toNat ≤ 126) [true, false] ["a", "x"]
        = fingerprintAddStrings (fun c => 32 ≤ c.toNat && c.toNat ≤ 126) [true, false] ["b", "x"]) ∧
    (applyEvalFields [true, false] ["a", "x"]).length = 2 := by
  refine ⟨?_, ?_, (c3_fingerprint_mask (fun c => 32 ≤ c.toNat && c.toNat ≤ 126)
    [true, false] ["a", "x"] ["a", "y"] (by decide) (by decide)).1⟩
  · exact (c3_fingerprint_mask (fun c => 32 ≤ c.toNat && c.toNat ≤ 126)
      [true, false] ["a", "x"] ["a", "y"] (by decide) (by decide)).2.2.mpr (by decide)
  · intro h
    have := (c3_fingerprint_mask (fun c => 32 ≤ c.toNat && c.toNat ≤ 126)
      [true, false] ["a", "x"] ["b", "x"] (by decide) (by decide)).2.2.mp h
    have h0 := this 0 (by decide) (by decide)
    exact absurd h0 (by decide)

end PrivacyDam
